import Mathlib

/-!
Verification of the content-document structure parser, span merger,
reconstructor and POT formatter of a site-internationalisation plugin
(`lektor_i18n.py`).

The Python source is shallowly embedded: strings become `List Char`, the
hand-rolled line classifier becomes an explicit state machine over a
`PState` record, and the two regular expressions (`command_re` and
`block2re`) are translated into executable matching functions whose
semantics follow the Python `re` engine on the inputs the parser feeds
them (single already-stripped lines, hence newline-free).
-/

/-- The set of characters stripped by Python `str.strip()` and matched by
`\s` in a `str` pattern: ASCII whitespace, the C0/C1 separators, and the
Unicode space characters. -/
def isPySpace (c : Char) : Bool :=
  c.toNat = 32 || (9 ≤ c.toNat && c.toNat ≤ 13) || (28 ≤ c.toNat && c.toNat ≤ 31) ||
  c.toNat = 133 || c.toNat = 160 || c.toNat = 5760 ||
  (8192 ≤ c.toNat && c.toNat ≤ 8202) || c.toNat = 8232 || c.toNat = 8233 ||
  c.toNat = 8239 || c.toNat = 8287 || c.toNat = 12288

/-- Python `str.lstrip()`. -/
def lstrip (s : List Char) : List Char := s.dropWhile isPySpace

/-- Python `str.rstrip()`. -/
def rstrip (s : List Char) : List Char := (s.reverse.dropWhile isPySpace).reverse

/-- Python `str.strip()`. -/
def pstrip (s : List Char) : List Char := rstrip (lstrip s)

/-- The character class `[a-zA-Z0-9.-_]` of `command_re`.  `.-_` inside a
character class is the range from `.` (0x2E) to `_` (0x5F): it contains the
digits, the uppercase letters, and punctuation such as `:`, `?`, `@`, `[`,
and it does not contain the dash `-` (0x2D). -/
def isKeyChar (c : Char) : Bool :=
  (('a' ≤ c) && (c ≤ 'z')) || (('A' ≤ c) && (c ≤ 'Z')) ||
  (('0' ≤ c) && (c ≤ '9')) || (('.' ≤ c) && (c ≤ '_'))

/-- Index of the last `:` in a list, if any. -/
def lastColonPos : List Char → Option Nat
  | [] => none
  | c :: rest =>
    match lastColonPos rest with
    | some j => some (j + 1)
    | none => if c = ':' then some 0 else none

/-- One attempt of `command_re = ([a-zA-Z0-9.-_]+):\s*(.*?)?\s*$` anchored
at the start of `s` (a stripped line, hence newline-free).  The greedy key
is the longest class-character prefix followed by a `:`; since `:` is
itself in the class, this is the class-run up to its last internal colon.
The tail `\s*(.*?)?\s*$` always matches and captures the tail stripped of
surrounding whitespace. -/
def commandMatchAt (s : List Char) : Option (List Char × List Char) :=
  let run := s.takeWhile isKeyChar
  match lastColonPos (run.drop 1) with
  | some j => some (s.take (j + 1), pstrip (s.drop (j + 2)))
  | none => none

/-- Model of `command_re.search`: try the anchored match at each successive start
position, returning the leftmost (key, value) pair. -/
def command_re_search : List Char → Option (List Char × List Char)
  | [] => none
  | c :: rest =>
    match commandMatchAt (c :: rest) with
    | some r => some r
    | none => command_re_search rest

/-- Length of the leading run of `#` characters. -/
def hashRun (s : List Char) : Nat := (s.takeWhile (fun c => c = '#')).length

/-- Model of `block2re.search` with `block2re = ^###(#+)\s*([^#]*?)\s*###(#+)\s*$`
on a (newline-free) line: after discarding trailing whitespace, the line
must be a run of at least 4 `#`, then a `#`-free middle, then a run of at
least 4 `#`; a line that is nothing but hashes needs at least 8 of them. -/
def block2re_search (s : List Char) : Bool :=
  let u := rstrip s
  let p := hashRun u
  if p = u.length then decide (8 ≤ u.length)
  else
    let rest := u.drop p
    let q := hashRun rest.reverse
    let mid := rest.take (rest.length - q)
    decide (4 ≤ p) && decide (4 ≤ q) && !(mid.contains '#')

/-- Model of `line_starts_new_block(line, prev_line)`: a line of 3 or more dashes
(and nothing else) opens a new block, but only when the parser state
carries a previous line and that line contains a colon. -/
def line_starts_new_block (line : List Char) (prev_line : Option (List Char)) : Bool :=
  match prev_line with
  | none => false
  | some p =>
    if p.isEmpty || !(p.contains ':') then false
    else
      let l := pstrip line
      decide (3 ≤ l.length) && l.all (fun c => c = '-')

/-- A span: a kind (`"raw"` or `"translatable"` as emitted by the parser)
together with its text. -/
abbrev Chunk := String × List Char

/-- The mutable state threaded through `__parse_source_structure`. -/
structure PState where
  count_lines_block : Nat
  is_content : Bool
  prev_line : Option (List Char)
deriving DecidableEq, Repr

def initState : PState := ⟨0, false, none⟩

/-- One iteration of the `for line in lines` loop of
`__parse_source_structure`: the spans appended for this line together with
the updated state.  A blank line emits `("raw", "\n")` and `continue`s
without touching the state (in particular `prev_line` keeps the last
non-blank line). -/
def parseLine (st : PState) (line : List Char) : List Chunk × PState :=
  if (pstrip line).isEmpty then ([("raw", ['\n'])], st)
  else if line_starts_new_block (pstrip line) st.prev_line ||
      block2re_search (pstrip line) then
    ([("raw", line)], ⟨0, false, some line⟩)
  else if st.count_lines_block + 1 = 1 ∧ st.is_content = false then
    match command_re_search (pstrip line) with
    | some (key, value) =>
      (("raw", key ++ [':']) ::
         (if value.isEmpty then [] else [("raw", [' ']), ("translatable", value)]) ++
         [("raw", ['\n'])],
       ⟨st.count_lines_block + 1, false, some line⟩)
    | none => ([("translatable", line)], ⟨st.count_lines_block + 1, true, some line⟩)
  else ([("translatable", line)], ⟨st.count_lines_block + 1, true, some line⟩)

/-- Spans emitted for a list of lines, before merging (the `blocks` list of
`__parse_source_structure`). -/
def parseLinesAux (st : PState) : List (List Char) → List Chunk
  | [] => []
  | l :: ls => (parseLine st l).1 ++ parseLinesAux (parseLine st l).2 ls

/-- Final parser state after a list of lines. -/
def runState (st : PState) : List (List Char) → PState
  | [] => st
  | l :: ls => runState (parseLine st l).2 ls

/-- The pre-merge span list of `__parse_source_structure`. -/
def parse_source_structure_pre (lines : List (List Char)) : List Chunk :=
  parseLinesAux initState lines

/-- The "join neighbour blocks of same type" loop: fold each span into the previous
one while the kind repeats. -/
def mergeAux : Chunk → List Chunk → List Chunk
  | cur, [] => [cur]
  | (k, t), (k2, t2) :: rest =>
    if k = k2 then mergeAux (k, t ++ t2) rest
    else (k, t) :: mergeAux (k2, t2) rest

/-- The span merger (`newblocks` loop of `__parse_source_structure`). -/
def mergeSpans : List Chunk → List Chunk
  | [] => []
  | s :: rest => mergeAux s rest

/-- Model of `__parse_source_structure`: parse, then merge neighbours. -/
def parse_source_structure (lines : List (List Char)) : List Chunk :=
  mergeSpans (parse_source_structure_pre lines)

/-- Concatenation of the texts of a span list. -/
def textConcat (l : List Chunk) : List Char := l.foldr (fun p acc => p.2 ++ acc) []

/-- Concatenation of the lines of a document. -/
def joinLines (ls : List (List Char)) : List Char := ls.foldr (fun l acc => l ++ acc) []

/-- Python `content.split("\n")` (separator split, empty parts kept). -/
def splitNl : List Char → List (List Char)
  | [] => [[]]
  | c :: rest =>
    if c = '\n' then [] :: splitNl rest
    else
      match splitNl rest with
      | [] => [[c]]
      | p :: ps => (c :: p) :: ps

/-- Python `sep.join(parts)`. -/
def joinSep (sep : List Char) : List (List Char) → List Char
  | [] => []
  | [x] => x
  | x :: y :: xs => x ++ sep ++ joinSep sep (y :: xs)

def rFirstGo (o : Char) (os new : List Char) : List Char → List Char
  | [] => []
  | c :: rest =>
    if (o :: os).isPrefixOf (c :: rest) then new ++ rest.drop os.length
    else c :: rFirstGo o os new rest

/-- Python `s.replace(old, new, 1)`: replace the first occurrence; an empty
`old` inserts `new` at the front. -/
def replaceFirst (s old new : List Char) : List Char :=
  match old with
  | [] => new ++ s
  | o :: os => rFirstGo o os new s

def rAllGo (o : Char) (os new : List Char) : List Char → List Char
  | [] => []
  | c :: rest =>
    if (o :: os).isPrefixOf (c :: rest) then new ++ rAllGo o os new (rest.drop os.length)
    else c :: rAllGo o os new rest
termination_by l => l.length
decreasing_by all_goals (simp [List.length_drop]; try omega)

def interAll (new : List Char) : List Char → List Char
  | [] => []
  | c :: rest => c :: (new ++ interAll new rest)

/-- Python `s.replace(old, new)`: replace every (non-overlapping, leftmost)
occurrence; an empty `old` inserts `new` at every position. -/
def replaceAll (s old new : List Char) : List Char :=
  match old with
  | [] => new ++ interAll new s
  | o :: os => rAllGo o os new s

def isNlCr (c : Char) : Bool := c = '\n' || c = '\r'

/-- Python `s.strip("\n\r")`. -/
def stripNlCr (s : List Char) : List Char :=
  ((s.dropWhile isNlCr).reverse.dropWhile isNlCr).reverse

/-- Decompose `w` at its last newline: `some (pre ++ ['\n'], post)` with
`post` newline-free, when `w` contains a newline. -/
def splitLastNl : List Char → Option (List Char × List Char)
  | [] => none
  | c :: rest =>
    match splitLastNl rest with
    | some (p, q) => some (c :: p, q)
    | none => if c = '\n' then some ([c], rest) else none

/-- Scanner of `re.split("\n(?:\\s*\n){1,}", document)`: a paragraph break
starts at a newline whose following whitespace run contains another
newline, and greedily extends to the last newline of that run. -/
def splitParasGo : List Char → List Char → List (List Char)
  | [], acc => [acc.reverse]
  | c :: rest, acc =>
    if c = '\n' then
      match splitLastNl (rest.takeWhile isPySpace) with
      | some (p, _) => acc.reverse :: splitParasGo (rest.drop p.length) []
      | none => splitParasGo rest (c :: acc)
    else splitParasGo rest (c :: acc)
termination_by s _ => s.length
decreasing_by all_goals (simp [List.length_drop]; try omega)

/-- Model of `split_paragraphs` of the source (on an already-joined document). -/
def split_paragraphs (document : List Char) : List (List Char) :=
  splitParasGo document []

/-- Model of `__trans_linewise`: split on newlines, translate each stripped line,
re-inject by first-occurrence replacement, re-join with newlines. -/
def trans_linewise (tr : List Char → List Char) (content : List Char) : List Char :=
  joinSep ['\n'] ((splitNl content).map (fun line =>
    let line_stripped := pstrip line
    let trans_stripline := if line_stripped.isEmpty then [] else tr line_stripped
    replaceFirst line line_stripped trans_stripline))

/-- Model of `__trans_parwise`: split into paragraphs, translate each paragraph
stripped of CR/LF, re-inject by replacement, re-join with blank lines. -/
def trans_parwise (tr : List Char → List Char) (content : List Char) : List Char :=
  joinSep ['\n', '\n'] ((split_paragraphs content).map (fun paragraph =>
    let stripped := stripNlCr paragraph
    replaceAll paragraph stripped (tr stripped)))

/-- The per-span loop of `translate_contents`: raw spans are copied
verbatim, translatable spans go through the line-wise or paragraph-wise
translation, and any other kind aborts reconstruction. -/
def translate_chunks (parwise : Bool) (tr : List Char → List Char) :
    List Chunk → Except String (List Char)
  | [] => .ok []
  | (content_type, content) :: rest =>
    if content_type = "raw" then
      (translate_chunks parwise tr rest).map (fun r => content ++ r)
    else if content_type = "translatable" then
      (translate_chunks parwise tr rest).map (fun r =>
        (if parwise then trans_parwise tr content else trans_linewise tr content) ++ r)
    else .error "Unknown chunk type detected, this is a bug"

def charCmp (a b : Char) : Ordering := if a < b then .lt else if b < a then .gt else .eq

def listCmp (cmp : α → α → Ordering) : List α → List α → Ordering
  | [], [] => .eq
  | [], _ :: _ => .lt
  | _ :: _, [] => .gt
  | a :: as, b :: bs =>
    match cmp a b with
    | .eq => listCmp cmp as bs
    | o => o

/-- Python string comparison (code-point lexicographic). -/
def strCmp : List Char → List Char → Ordering := listCmp charCmp

/-- Python list-of-strings comparison. -/
def listStrCmp : List (List Char) → List (List Char) → Ordering := listCmp strCmp

def leOfCmp (cmp : α → α → Ordering) (a b : α) : Bool :=
  match cmp a b with
  | .gt => false
  | _ => true

def strLe : List Char → List Char → Bool := leOfCmp strCmp

/-- Python comparison of the `(sorted(paths), msg)` tuples of `as_pot`. -/
def tupCmp (a b : List (List Char) × List Char) : Ordering :=
  match listStrCmp a.1 b.1 with
  | .eq => strCmp a.2 b.2
  | o => o

def tupLe : (List (List Char) × List Char) → (List (List Char) × List Char) → Bool :=
  leOfCmp tupCmp

def insertSorted (le : α → α → Bool) (x : α) : List α → List α
  | [] => [x]
  | y :: ys => if le x y then x :: y :: ys else y :: insertSorted le x ys

/-- Python `sorted` (ascending, stable). -/
def sortBy (le : α → α → Bool) : List α → List α
  | [] => []
  | x :: xs => insertSorted le x (sortBy le xs)

/-- The escaping loop of `as_pot`: successive `str.replace` of backslash,
newline, tab and double-quote by their two-character escapes. -/
def escape_msg (msg : List Char) : List Char :=
  replaceAll (replaceAll (replaceAll (replaceAll msg ['\\'] ['\\', '\\'])
    ['\n'] ['\\', 'n']) ['\t'] ['\\', 't']) ['"'] ['\\', '"']

/-- The list `translations_by_path` of `as_pot`: drop empty texts, pair each text
with its sorted provenance list. -/
def potItems (tm : List (List Char × List (List Char))) :
    List (List (List Char) × List Char) :=
  (tm.filter (fun p => !p.1.isEmpty)).map (fun p => (sortBy strLe p.2, p.1))

/-- Python `sorted(translations_by_path)`. -/
def potSorted (tm : List (List Char × List (List Char))) :
    List (List (List Char) × List Char) :=
  sortBy tupLe (potItems tm)

/-- One POT entry: provenance comment line, escaped msgid, empty msgstr. -/
def pot_entry (e : List (List Char) × List Char) : List Char :=
  "#: ".toList ++ joinSep [' '] e.1 ++ "\nmsgid \"".toList ++ escape_msg e.2 ++
    "\"\nmsgstr \"\"\n\n".toList

/-- Model of `Translations.as_pot` with the timestamped header abstracted as an
argument: header followed by the sorted, escaped entries. -/
def as_pot (header : List Char) (tm : List (List Char × List (List Char))) : List Char :=
  header ++ ((potSorted tm).map pot_entry).foldr (fun a acc => a ++ acc) []

/-- Scanner checking that every double-quote is immediately preceded by a
backslash character; the Boolean argument records whether the previous
character was a backslash. -/
def quotesEscapedFrom (prevBackslash : Bool) : List Char → Bool
  | [] => true
  | c :: rest =>
    if c = '"' && !prevBackslash then false
    else quotesEscapedFrom (c = '\\') rest

/-- Every double-quote in the list is immediately preceded by a backslash
(so it appears only as part of a two-character escape). -/
def quotesEscaped (s : List Char) : Bool := quotesEscapedFrom false s

theorem textConcat_cons (p : Chunk) (l : List Chunk) :
    textConcat (p :: l) = p.2 ++ textConcat l := rfl

theorem textConcat_append (a b : List Chunk) :
    textConcat (a ++ b) = textConcat a ++ textConcat b := by
  induction a with
  | nil => rfl
  | cons p tl ih => simp [textConcat_cons, ih, List.append_assoc]

theorem mergeAux_textConcat (l : List Chunk) :
    ∀ k t, textConcat (mergeAux (k, t) l) = t ++ textConcat l := by
  induction l with
  | nil => intro k t; simp [mergeAux, textConcat]
  | cons hd tl ih =>
    intro k t
    obtain ⟨k2, t2⟩ := hd
    by_cases h : k = k2
    · simp [mergeAux, h, ih, textConcat_cons, List.append_assoc]
    · simp [mergeAux, h, ih, textConcat_cons]

theorem mergeAux_head_kind (l : List Chunk) :
    ∀ k t, ∃ t2 tl, mergeAux (k, t) l = (k, t2) :: tl := by
  induction l with
  | nil => intro k t; exact ⟨t, [], rfl⟩
  | cons hd tl ih =>
    intro k t
    obtain ⟨k2, t2⟩ := hd
    by_cases h : k = k2
    · subst h
      obtain ⟨t3, tl3, h3⟩ := ih k (t ++ t2)
      exact ⟨t3, tl3, by simp [mergeAux, h3]⟩
    · exact ⟨t, mergeAux (k2, t2) tl, by simp [mergeAux, h]⟩

theorem mergeAux_chain (l : List Chunk) :
    ∀ k t, List.Chain' (fun a b : Chunk => a.1 ≠ b.1) (mergeAux (k, t) l) := by
  induction l with
  | nil => intro k t; simp [mergeAux]
  | cons hd tl ih =>
    intro k t
    obtain ⟨k2, t2⟩ := hd
    by_cases h : k = k2
    · simpa [mergeAux, h] using ih k (t ++ t2)
    · rw [show mergeAux (k, t) ((k2, t2) :: tl) = (k, t) :: mergeAux (k2, t2) tl by
        simp [mergeAux, h]]
      rw [List.chain'_cons']
      refine ⟨?_, ih k2 t2⟩
      intro b hb
      obtain ⟨t3, tl3, h3⟩ := mergeAux_head_kind tl k2 t2
      rw [h3] at hb
      simp at hb
      subst hb
      simpa using h

theorem mergeAux_of_chain (l : List Chunk) :
    ∀ x : Chunk, List.Chain' (fun a b : Chunk => a.1 ≠ b.1) (x :: l) →
      mergeAux x l = x :: l := by
  induction l with
  | nil => intro x _; obtain ⟨k, t⟩ := x; simp [mergeAux]
  | cons y tl ih =>
    intro x hc
    obtain ⟨k, t⟩ := x
    obtain ⟨k2, t2⟩ := y
    rw [List.chain'_cons] at hc
    have hne : k ≠ k2 := hc.1
    simp only [mergeAux, if_neg hne]
    rw [ih (k2, t2) hc.2]

theorem mergeSpans_chain (l : List Chunk) :
    List.Chain' (fun a b : Chunk => a.1 ≠ b.1) (mergeSpans l) := by
  cases l with
  | nil => simp [mergeSpans]
  | cons x tl => obtain ⟨k, t⟩ := x; exact mergeAux_chain tl k t

theorem mergeSpans_of_chain (l : List Chunk)
    (h : List.Chain' (fun a b : Chunk => a.1 ≠ b.1) l) : mergeSpans l = l := by
  cases l with
  | nil => rfl
  | cons x tl => exact mergeAux_of_chain tl x h

theorem mergeSpans_textConcat (l : List Chunk) :
    textConcat (mergeSpans l) = textConcat l := by
  cases l with
  | nil => rfl
  | cons x tl =>
    obtain ⟨k, t⟩ := x
    rw [show mergeSpans ((k, t) :: tl) = mergeAux (k, t) tl from rfl,
      mergeAux_textConcat, textConcat_cons]

/-- Claim C7: the span merger is idempotent, its output never has two
adjacent spans of the same kind, and it preserves the concatenation of the
span texts. -/
theorem C7_merger_idempotent_adjacent_distinct (l : List Chunk) :
    mergeSpans (mergeSpans l) = mergeSpans l ∧
    List.Chain' (fun a b : Chunk => a.1 ≠ b.1) (mergeSpans l) ∧
    textConcat (mergeSpans l) = textConcat l :=
  ⟨mergeSpans_of_chain _ (mergeSpans_chain l), mergeSpans_chain l,
    mergeSpans_textConcat l⟩

theorem mergeAux_mem_prop (Q : String → List Char → Prop)
    (hQ : ∀ k t1 t2, Q k t1 → Q k t2 → Q k (t1 ++ t2)) (l : List Chunk) :
    ∀ k t, Q k t → (∀ p ∈ l, Q p.1 p.2) → ∀ p ∈ mergeAux (k, t) l, Q p.1 p.2 := by
  induction l with
  | nil =>
    intro k t hkt _ p hp
    simp [mergeAux] at hp
    subst hp
    exact hkt
  | cons hd tl ih =>
    intro k t hkt hl p hp
    obtain ⟨k2, t2⟩ := hd
    by_cases h : k = k2
    · subst h
      rw [show mergeAux (k, t) ((k, t2) :: tl) = mergeAux (k, t ++ t2) tl by
        simp [mergeAux]] at hp
      exact ih k (t ++ t2) (hQ k t t2 hkt (hl (k, t2) (by simp)))
        (fun q hq => hl q (by simp [hq])) p hp
    · rw [show mergeAux (k, t) ((k2, t2) :: tl) = (k, t) :: mergeAux (k2, t2) tl by
        simp [mergeAux, h]] at hp
      rcases List.mem_cons.mp hp with h1 | h1
      · subst h1; exact hkt
      · exact ih k2 t2 (hl (k2, t2) (by simp)) (fun q hq => hl q (by simp [hq])) p h1

theorem mergeSpans_mem_prop (Q : String → List Char → Prop)
    (hQ : ∀ k t1 t2, Q k t1 → Q k t2 → Q k (t1 ++ t2)) (l : List Chunk)
    (hl : ∀ p ∈ l, Q p.1 p.2) : ∀ p ∈ mergeSpans l, Q p.1 p.2 := by
  cases l with
  | nil => intro p hp; simp [mergeSpans] at hp
  | cons x tl =>
    obtain ⟨k, t⟩ := x
    exact mergeAux_mem_prop Q hQ tl k t (hl (k, t) (by simp))
      (fun q hq => hl q (by simp [hq]))


theorem parseLine_cases (st : PState) (l : List Char) :
    ((pstrip l).isEmpty = true ∧ parseLine st l = ([("raw", ['\n'])], st)) ∨
    parseLine st l = ([("raw", l)], ⟨0, false, some l⟩) ∨
    (∃ key value, (pstrip l).isEmpty = false ∧
      command_re_search (pstrip l) = some (key, value) ∧
      parseLine st l = (("raw", key ++ [':']) ::
        (if value.isEmpty then [] else [("raw", [' ']), ("translatable", value)]) ++
        [("raw", ['\n'])], ⟨st.count_lines_block + 1, false, some l⟩)) ∨
    ((pstrip l).isEmpty = false ∧
      parseLine st l = ([("translatable", l)], ⟨st.count_lines_block + 1, true, some l⟩)) := by
  by_cases h0 : (pstrip l).isEmpty = true
  · left
    refine ⟨h0, ?_⟩
    simp only [parseLine]
    rw [if_pos h0]
  · by_cases hb : (line_starts_new_block (pstrip l) st.prev_line ||
      block2re_search (pstrip l)) = true
    · right; left
      simp only [parseLine]
      rw [if_neg h0, if_pos hb]
    · by_cases hcond : st.count_lines_block + 1 = 1 ∧ st.is_content = false
      · rcases hm : command_re_search (pstrip l) with _ | ⟨key, value⟩
        · right; right; right
          refine ⟨Bool.not_eq_true _ ▸ h0, ?_⟩
          simp only [parseLine]
          rw [if_neg h0, if_neg hb, if_pos hcond, hm]
        · right; right; left
          refine ⟨key, value, Bool.not_eq_true _ ▸ h0, rfl, ?_⟩
          simp only [parseLine]
          rw [if_neg h0, if_neg hb, if_pos hcond, hm]
      · right; right; right
        refine ⟨Bool.not_eq_true _ ▸ h0, ?_⟩
        simp only [parseLine]
        rw [if_neg h0, if_neg hb, if_neg hcond]

theorem parseLine_kinds (st : PState) (l : List Char) :
    ∀ p ∈ (parseLine st l).1, p.1 = "raw" ∨ p.1 = "translatable" := by
  intro p hp
  rcases parseLine_cases st l with ⟨_, h⟩ | h | ⟨key, value, _, _, h⟩ | ⟨_, h⟩ <;>
    rw [h] at hp
  · simp at hp; rw [hp]; left; rfl
  · simp at hp; rw [hp]; left; rfl
  · by_cases hv : value.isEmpty = true
    · rw [if_pos hv] at hp
      simp at hp
      rcases hp with hp | hp <;> rw [hp] <;> simp
    · rw [if_neg hv] at hp
      simp at hp
      rcases hp with hp | hp | hp | hp <;> rw [hp] <;> simp
  · simp at hp; rw [hp]; right; rfl

theorem parseLinesAux_mem (lines : List (List Char)) (Q : String → List Char → Prop)
    (h : ∀ st l, l ∈ lines → ∀ p ∈ (parseLine st l).1, Q p.1 p.2) :
    ∀ st, ∀ p ∈ parseLinesAux st lines, Q p.1 p.2 := by
  induction lines with
  | nil => intro st p hp; simp [parseLinesAux] at hp
  | cons hd tl ih =>
    intro st p hp
    rw [parseLinesAux] at hp
    rcases List.mem_append.mp hp with h1 | h1
    · exact h st hd (by simp) p h1
    · exact ih (fun st2 l hl => h st2 l (by simp [hl])) _ p h1

theorem parse_source_structure_kinds (lines : List (List Char)) :
    ∀ p ∈ parse_source_structure lines, p.1 = "raw" ∨ p.1 = "translatable" := by
  refine mergeSpans_mem_prop (fun k _ => k = "raw" ∨ k = "translatable") ?_ _ ?_
  · intro k t1 t2 h1 _; exact h1
  · exact parseLinesAux_mem lines (fun k _ => k = "raw" ∨ k = "translatable")
      (fun st l _ => parseLine_kinds st l) initState

/-- Claim C8: every span produced by the document structure parser has kind
"raw" or "translatable"; and if a span of any other kind reaches the
reconstruction loop, reconstruction aborts with the fatal "Unknown chunk
type" error instead of skipping the span or writing it silently. -/
theorem C8_kinds_and_fatal_error :
    (∀ lines : List (List Char), ∀ p ∈ parse_source_structure lines,
      p.1 = "raw" ∨ p.1 = "translatable") ∧
    (∀ (parwise : Bool) (tr : List Char → List Char) (pre : List Chunk)
      (k : String) (t : List Char) (post : List Chunk),
      (∀ p ∈ pre, p.1 = "raw" ∨ p.1 = "translatable") →
      k ≠ "raw" → k ≠ "translatable" →
      translate_chunks parwise tr (pre ++ (k, t) :: post) =
        .error "Unknown chunk type detected, this is a bug") := by
  constructor
  · exact parse_source_structure_kinds
  · intro parwise tr pre
    induction pre with
    | nil =>
      intro k t post _ hk1 hk2
      simp [translate_chunks, hk1, hk2]
    | cons hd tl ih =>
      intro k t post hpre hk1 hk2
      obtain ⟨k0, t0⟩ := hd
      have h0 := hpre (k0, t0) (by simp)
      simp only at h0
      have hrest := ih k t post (fun p hp => hpre p (by simp [hp])) hk1 hk2
      rcases h0 with h0 | h0 <;> subst h0 <;>
        simp [translate_chunks, hrest, Except.map]

/-- Witness for C8: a concrete span list whose second element has the
unrecognized kind "bogus" makes reconstruction return the fatal error. -/
theorem C8_kinds_and_fatal_error_witness :
    translate_chunks false (fun s => s) ([("raw", ['x'])] ++ ("bogus", ['y']) :: []) =
      .error "Unknown chunk type detected, this is a bug" :=
  C8_kinds_and_fatal_error.2 false (fun s => s) [("raw", ['x'])] "bogus" ['y'] []
    (by decide) (by decide) (by decide)

/-- Well-formedness of one raw source line, assumed by the amended
round-trip claims: a whitespace-only line is exactly "\n"; any other line
is a newline-free body closed by "\n"; and a line whose stripped text
matches `command_re` is in the canonical `key: value` shape that the
parser re-emits for a block header. -/
def goodLine (l : List Char) : Bool :=
  if (pstrip l).isEmpty then decide (l = ['\n'])
  else
    decide (l.getLast? = some '\n') && !(l.dropLast.contains '\n') &&
    (match command_re_search (pstrip l) with
     | some (key, value) =>
       decide (l = key ++ [':'] ++ (if value.isEmpty then [] else ' ' :: value) ++ ['\n'])
     | none => true)

theorem goodLine_blank (l : List Char) (hg : goodLine l = true)
    (h0 : (pstrip l).isEmpty = true) : l = ['\n'] := by
  unfold goodLine at hg
  rw [h0] at hg
  simpa using hg

theorem goodLine_body (l : List Char) (hg : goodLine l = true)
    (h0 : (pstrip l).isEmpty = false) :
    l.getLast? = some '\n' ∧ l.dropLast.contains '\n' = false := by
  unfold goodLine at hg
  rw [h0] at hg
  simp only [Bool.false_eq_true, if_false, Bool.and_eq_true] at hg
  exact ⟨by simpa using hg.1.1, by simpa using hg.1.2⟩

theorem goodLine_canonical (l key value : List Char) (hg : goodLine l = true)
    (h0 : (pstrip l).isEmpty = false)
    (hm : command_re_search (pstrip l) = some (key, value)) :
    l = key ++ [':'] ++ (if value.isEmpty then [] else ' ' :: value) ++ ['\n'] := by
  unfold goodLine at hg
  rw [h0, hm] at hg
  simp only [Bool.false_eq_true, if_false, Bool.and_eq_true] at hg
  simpa using hg.2

theorem parseLine_textConcat (st : PState) (l : List Char) (hg : goodLine l = true) :
    textConcat (parseLine st l).1 = l := by
  rcases parseLine_cases st l with ⟨h0, h⟩ | h | ⟨key, value, h0, hm, h⟩ | ⟨_, h⟩ <;>
    rw [h]
  · rw [goodLine_blank l hg h0]; rfl
  · simp [textConcat]
  · have hc := goodLine_canonical l key value hg h0 hm
    by_cases hv : value.isEmpty = true
    · rw [if_pos hv] at hc ⊢
      rw [hc]
      simp [textConcat]
    · rw [if_neg hv] at hc ⊢
      rw [hc]
      simp [textConcat]
  · simp [textConcat]

theorem parseLinesAux_textConcat (lines : List (List Char))
    (hg : ∀ l ∈ lines, goodLine l = true) :
    ∀ st, textConcat (parseLinesAux st lines) = joinLines lines := by
  induction lines with
  | nil => intro st; rfl
  | cons hd tl ih =>
    intro st
    rw [parseLinesAux, textConcat_append, parseLine_textConcat st hd (hg hd (by simp)),
      ih (fun l hl => hg l (by simp [hl]))]
    rfl

/-- Counterexample to C1 as stated: the single-line document " \n" (a
whitespace-only line that is not exactly a bare newline) parses, pre-merge
and post-merge, to spans whose concatenated text "\n" is not the document. -/
theorem C1_round_trip_counterexample :
    textConcat (parse_source_structure_pre [[' ', '\n']]) ≠ joinLines [[' ', '\n']] ∧
    textConcat (parse_source_structure [[' ', '\n']]) ≠ joinLines [[' ', '\n']] := by
  decide

/-- Claim C1 (amended): for every document all of whose lines are
well-formed (each line ends in its own newline and contains no other; a
whitespace-only line is exactly "\n"; a line whose stripped text matches
the key:value pattern is in the canonical shape the parser re-emits),
concatenating the text of every span produced by the structure parser,
before or after merging, equals the document byte for byte. -/
theorem C1_round_trip_amended (lines : List (List Char))
    (hg : ∀ l ∈ lines, goodLine l = true) :
    textConcat (parse_source_structure_pre lines) = joinLines lines ∧
    textConcat (parse_source_structure lines) = joinLines lines := by
  have h1 := parseLinesAux_textConcat lines hg initState
  exact ⟨h1, by rw [parse_source_structure, mergeSpans_textConcat]; exact h1⟩

/-- Witness for amended C1: a concrete document with a key:value header, a
dash separator, a blank line and body text round-trips exactly. -/
theorem C1_round_trip_amended_witness :
    (∀ l ∈ ["title: Hello\n".toList, "---\n".toList, ['\n'], "body text\n".toList],
      goodLine l = true) ∧
    textConcat (parse_source_structure
        ["title: Hello\n".toList, "---\n".toList, ['\n'], "body text\n".toList]) =
      joinLines ["title: Hello\n".toList, "---\n".toList, ['\n'], "body text\n".toList] :=
  ⟨by decide,
    (C1_round_trip_amended
      ["title: Hello\n".toList, "---\n".toList, ['\n'], "body text\n".toList]
      (by decide)).2⟩

theorem dropWhile_append_of_all (p : Char → Bool) (w s : List Char)
    (h : ∀ a ∈ w, p a = true) :
    List.dropWhile p (w ++ s) = List.dropWhile p s := by
  induction w with
  | nil => rfl
  | cons c rest ih =>
    rw [List.cons_append, List.dropWhile_cons, if_pos (h c (by simp))]
    exact ih (fun a ha => h a (by simp [ha]))

theorem dropWhile_append_of_ne (p : Char → Bool) (s w : List Char)
    (h : List.dropWhile p s ≠ []) :
    List.dropWhile p (s ++ w) = List.dropWhile p s ++ w := by
  induction s with
  | nil => exact absurd rfl h
  | cons c rest ih =>
    by_cases hc : p c = true
    · rw [List.cons_append, List.dropWhile_cons, if_pos hc, List.dropWhile_cons,
        if_pos hc] at *
      exact ih h
    · rw [List.cons_append, List.dropWhile_cons,
        if_neg (by simpa using hc), List.dropWhile_cons, if_neg (by simpa using hc),
        List.cons_append]

theorem dropWhile_eq_nil_of_all (p : Char → Bool) (s : List Char)
    (h : ∀ a ∈ s, p a = true) : List.dropWhile p s = [] := by
  induction s with
  | nil => rfl
  | cons c rest ih =>
    rw [List.dropWhile_cons, if_pos (h c (by simp))]
    exact ih (fun a ha => h a (by simp [ha]))

theorem all_of_dropWhile_eq_nil (p : Char → Bool) (s : List Char)
    (h : List.dropWhile p s = []) : ∀ a ∈ s, p a = true := by
  induction s with
  | nil => intro a ha; simp at ha
  | cons c rest ih =>
    intro a ha
    rw [List.dropWhile_cons] at h
    by_cases hc : p c = true
    · rw [if_pos hc] at h
      rcases List.mem_cons.mp ha with h1 | h1
      · rw [h1]; exact hc
      · exact ih h a h1
    · rw [if_neg (by simpa using hc)] at h
      simp at h
  
theorem mem_of_mem_dropWhile (p : Char → Bool) (s : List Char) (c : Char)
    (h : c ∈ List.dropWhile p s) : c ∈ s := by
  induction s with
  | nil => simp [List.dropWhile] at h
  | cons d rest ih =>
    rw [List.dropWhile_cons] at h
    by_cases hd : p d = true
    · rw [if_pos hd] at h; exact List.mem_cons.mpr (Or.inr (ih h))
    · rw [if_neg (by simpa using hd)] at h; exact h

theorem dropWhile_head_false (p : Char → Bool) (s : List Char) (c : Char)
    (t : List Char) (h : List.dropWhile p s = c :: t) : p c = false := by
  induction s with
  | nil => simp [List.dropWhile] at h
  | cons d rest ih =>
    rw [List.dropWhile_cons] at h
    by_cases hd : p d = true
    · rw [if_pos hd] at h; exact ih h
    · rw [if_neg (by simpa using hd)] at h
      injection h with h1 h2
      rw [← h1]
      simpa using hd

theorem takeWhile_all (p : Char → Bool) (s : List Char) :
    ∀ a ∈ List.takeWhile p s, p a = true := by
  induction s with
  | nil => intro a ha; simp [List.takeWhile] at ha
  | cons d rest ih =>
    intro a ha
    rw [List.takeWhile_cons] at ha
    by_cases hd : p d = true
    · rw [if_pos hd] at ha
      rcases List.mem_cons.mp ha with h1 | h1
      · rw [h1]; exact hd
      · exact ih a h1
    · rw [if_neg (by simpa using hd)] at ha; simp at ha

theorem rstrip_decomp (s : List Char) :
    ∃ t, s = rstrip s ++ t ∧ ∀ c ∈ t, isPySpace c = true := by
  refine ⟨(s.reverse.takeWhile isPySpace).reverse, ?_, ?_⟩
  · unfold rstrip
    conv_lhs => rw [← s.reverse_reverse, ← List.takeWhile_append_dropWhile
      (p := isPySpace) (l := s.reverse)]
    rw [List.reverse_append]
  · intro c hc
    exact takeWhile_all isPySpace s.reverse c (by simpa using hc)

theorem mem_of_mem_rstrip (s : List Char) (c : Char) (h : c ∈ rstrip s) : c ∈ s := by
  unfold rstrip at h
  rw [List.mem_reverse] at h
  simpa using mem_of_mem_dropWhile isPySpace s.reverse c h

theorem mem_of_mem_pstrip (s : List Char) (c : Char) (h : c ∈ pstrip s) : c ∈ s :=
  mem_of_mem_dropWhile isPySpace s c (mem_of_mem_rstrip (lstrip s) c h)

theorem rstrip_append_ws (s w : List Char) (h : ∀ c ∈ w, isPySpace c = true) :
    rstrip (s ++ w) = rstrip s := by
  unfold rstrip
  rw [List.reverse_append, dropWhile_append_of_all isPySpace w.reverse s.reverse
    (fun a ha => h a (by simpa using ha))]

theorem pstrip_append_ws (s w : List Char) (h : ∀ c ∈ w, isPySpace c = true) :
    pstrip (s ++ w) = pstrip s := by
  unfold pstrip lstrip
  by_cases h0 : List.dropWhile isPySpace s = []
  · rw [dropWhile_append_of_all isPySpace s w (all_of_dropWhile_eq_nil isPySpace s h0),
      dropWhile_eq_nil_of_all isPySpace w h, h0]
  · rw [dropWhile_append_of_ne isPySpace s w h0,
      rstrip_append_ws (List.dropWhile isPySpace s) w h]

theorem pstrip_head_not_space (s c : _) (t : List Char) (h : pstrip s = c :: t) :
    isPySpace c = false := by
  obtain ⟨t2, ht2, _⟩ := rstrip_decomp (lstrip s)
  unfold pstrip at h
  rw [h] at ht2
  exact dropWhile_head_false isPySpace s c (t ++ t2) (by simpa using ht2)

theorem pstrip_ne_nil_nonws (s : List Char) (h : pstrip s ≠ []) :
    ∃ c ∈ s, isPySpace c = false := by
  by_contra hall
  push_neg at hall
  refine h ?_
  unfold pstrip lstrip
  rw [dropWhile_eq_nil_of_all isPySpace s
    (fun a ha => by simpa using hall a ha)]
  rfl

/-- State of a scanner over a span text: `dead` = a paragraph break exists;
`first` = in the first newline-free segment, no non-whitespace seen yet;
`mid` = in a later segment, no non-whitespace seen yet; `good` = current
segment contains non-whitespace. -/
inductive SegSt
  | dead
  | first
  | mid
  | good
deriving DecidableEq, Repr

def segStep : SegSt → Char → SegSt
  | .dead, _ => .dead
  | .first, c => if c = '\n' then .dead else if isPySpace c then .first else .good
  | .mid, c => if c = '\n' then .dead else if isPySpace c then .mid else .good
  | .good, c => if c = '\n' then .mid else .good

def foldSt (s : SegSt) : List Char → SegSt
  | [] => s
  | c :: t => foldSt (segStep s c) t

/-- A span text is paragraph-break free in the strong, concatenation-closed
sense: its first segment contains non-whitespace and every segment between
two newlines contains non-whitespace. -/
def spanOk (t : List Char) : Bool :=
  match foldSt .first t with
  | .mid => true
  | .good => true
  | _ => false

def rank : SegSt → Nat
  | .dead => 0
  | .first => 1
  | .mid => 2
  | .good => 3

theorem foldSt_dead (t : List Char) : foldSt .dead t = .dead := by
  induction t with
  | nil => rfl
  | cons c rest ih => rw [foldSt, show segStep .dead c = .dead from rfl]; exact ih

theorem foldSt_append (s : SegSt) (a b : List Char) :
    foldSt s (a ++ b) = foldSt (foldSt s a) b := by
  induction a generalizing s with
  | nil => rfl
  | cons c rest ih => rw [List.cons_append, foldSt, foldSt, ih]

theorem segStep_mono (s1 s2 : SegSt) (c : Char) (h : rank s1 ≤ rank s2) :
    rank (segStep s1 c) ≤ rank (segStep s2 c) := by
  cases s1 <;> cases s2 <;> simp [rank] at h ⊢ <;> simp [segStep] <;>
    split_ifs <;> simp [rank]

theorem foldSt_mono (t : List Char) (s1 s2 : SegSt) (h : rank s1 ≤ rank s2) :
    rank (foldSt s1 t) ≤ rank (foldSt s2 t) := by
  induction t generalizing s1 s2 with
  | nil => exact h
  | cons c rest ih => exact ih (segStep s1 c) (segStep s2 c) (segStep_mono s1 s2 c h)

theorem spanOk_iff_rank (t : List Char) : spanOk t = true ↔ 2 ≤ rank (foldSt .first t) := by
  unfold spanOk
  rcases h : foldSt SegSt.first t with _ | _ | _ | _ <;> simp [rank]

theorem spanOk_append (t1 t2 : List Char) (h1 : spanOk t1 = true)
    (h2 : spanOk t2 = true) : spanOk (t1 ++ t2) = true := by
  rw [spanOk_iff_rank] at h1 h2 ⊢
  rw [foldSt_append]
  calc 2 ≤ rank (foldSt .first t2) := h2
    _ ≤ rank (foldSt (foldSt .first t1) t2) :=
        foldSt_mono t2 .first (foldSt .first t1) (by
          have : (1 : Nat) ≤ 2 := by omega
          exact le_trans (by simp [rank]) (le_trans this h1))

theorem foldSt_good_no_nl (t : List Char) (h : '\n' ∉ t) : foldSt .good t = .good := by
  induction t with
  | nil => rfl
  | cons c rest ih =>
    rw [foldSt, show segStep .good c = if c = '\n' then .mid else .good from rfl,
      if_neg (by intro hc; exact h (by simp [hc]))]
    exact ih (fun hc => h (by simp [hc]))

theorem foldSt_reach_good (t : List Char) (hnl : '\n' ∉ t)
    (hex : ∃ c ∈ t, isPySpace c = false) :
    ∀ s : SegSt, s ≠ .dead → foldSt s t = .good := by
  induction t with
  | nil => obtain ⟨c, hc, _⟩ := hex; simp at hc
  | cons c rest ih =>
    intro s hs
    have hcnl : c ≠ '\n' := fun hc => hnl (by simp [hc])
    by_cases hws : isPySpace c = true
    · have hrest : ∃ d ∈ rest, isPySpace d = false := by
        obtain ⟨d, hd, hdws⟩ := hex
        rcases List.mem_cons.mp hd with h1 | h1
        · rw [h1] at hdws; rw [hdws] at hws; simp at hws
        · exact ⟨d, h1, hdws⟩
      rw [foldSt]
      have hstep : segStep s c = s ∨ segStep s c = .good := by
        cases s
        · exact absurd rfl hs
        · left; simp [segStep, if_neg hcnl, hws]
        · left; simp [segStep, if_neg hcnl, hws]
        · right; simp [segStep, if_neg hcnl]
      rcases hstep with h1 | h1 <;> rw [h1]
      · exact ih (fun hc => hnl (by simp [hc])) hrest s hs
      · exact foldSt_good_no_nl rest (fun hc => hnl (by simp [hc]))
    · rw [foldSt]
      have hstep : segStep s c = .good := by
        cases s
        · exact absurd rfl hs
        · simp [segStep, if_neg hcnl, hws]
        · simp [segStep, if_neg hcnl, hws]
        · simp [segStep, if_neg hcnl]
      rw [hstep]
      exact foldSt_good_no_nl rest (fun hc => hnl (by simp [hc]))

theorem foldSt_dead_of_ws_nl (t : List Char) :
    ∀ s : SegSt, (s = .first ∨ s = .mid) → '\n' ∈ t.takeWhile isPySpace →
      foldSt s t = .dead := by
  induction t with
  | nil => intro s _ h; simp [List.takeWhile] at h
  | cons c rest ih =>
    intro s hs h
    rw [List.takeWhile_cons] at h
    by_cases hws : isPySpace c = true
    · rw [if_pos hws] at h
      rcases List.mem_cons.mp h with h1 | h1
      · rw [foldSt]
        have : segStep s c = .dead := by
          rcases hs with h2 | h2 <;> rw [h2] <;> simp [segStep, ← h1]
        rw [this]
        exact foldSt_dead rest
      · by_cases hcnl : c = '\n'
        · rw [foldSt]
          have : segStep s c = .dead := by
            rcases hs with h2 | h2 <;> rw [h2] <;> simp [segStep, hcnl]
          rw [this]
          exact foldSt_dead rest
        · rw [foldSt]
          have : segStep s c = s := by
            rcases hs with h2 | h2 <;> rw [h2] <;> simp [segStep, hcnl, hws]
          rw [this]
          exact ih s hs h1
    · rw [if_neg (by simpa using hws)] at h
      simp at h

/-- A scan asserting there is no paragraph break: no newline is followed by
a whitespace run containing another newline. -/
def noBreakScan : List Char → Bool
  | [] => true
  | c :: rest =>
    (if c = '\n' then (splitLastNl (rest.takeWhile isPySpace)).isNone else true) &&
    noBreakScan rest

theorem splitLastNl_none_iff (w : List Char) : splitLastNl w = none ↔ '\n' ∉ w := by
  induction w with
  | nil => simp [splitLastNl]
  | cons c rest ih =>
    rw [splitLastNl]
    rcases h : splitLastNl rest with _ | pq
    · have hrest : '\n' ∉ rest := ih.mp h
      by_cases hc : c = '\n'
      · subst hc; simp
      · simp only [if_neg hc]
        have hcn : ¬ ('\n' = c) := fun h2 => hc h2.symm
        simp [hrest, hcn]
    · have hmem : '\n' ∈ rest := by
        by_contra hmem
        rw [ih.mpr hmem] at h
        simp at h
      simp [hmem]

theorem noBreakScan_of_foldSt (t : List Char) :
    ∀ s : SegSt, foldSt s t ≠ .dead → noBreakScan t = true := by
  induction t with
  | nil => intro s _; rfl
  | cons c rest ih =>
    intro s hf
    rw [foldSt] at hf
    have hs2 : segStep s c ≠ .dead := fun h2 => hf (by rw [h2]; exact foldSt_dead rest)
    rw [noBreakScan, Bool.and_eq_true]
    refine ⟨?_, ih (segStep s c) hf⟩
    by_cases hc : c = '\n'
    · subst hc
      rw [if_pos rfl]
      have hsg : segStep s '\n' = .mid := by
        cases s <;> simp [segStep] at hs2 ⊢
      rw [Option.isNone_iff_eq_none]
      by_contra hne
      have hmem : '\n' ∈ rest.takeWhile isPySpace := by
        by_contra hmem
        exact hne ((splitLastNl_none_iff _).mpr hmem)
      exact hf (by rw [hsg]; exact foldSt_dead_of_ws_nl rest .mid (Or.inr rfl) hmem)
    · rw [if_neg hc]

theorem splitParasGo_no_break (t : List Char) (h : noBreakScan t = true) :
    ∀ acc, splitParasGo t acc = [acc.reverse ++ t] := by
  induction t with
  | nil => intro acc; simp [splitParasGo]
  | cons c rest ih =>
    intro acc
    rw [noBreakScan, Bool.and_eq_true] at h
    by_cases hc : c = '\n'
    · have hnone : splitLastNl (rest.takeWhile isPySpace) = none := by
        have h1 := h.1
        rw [if_pos hc] at h1
        exact Option.isNone_iff_eq_none.mp h1
      rw [splitParasGo, if_pos hc, hnone]
      rw [ih h.2 (c :: acc)]
      simp
    · rw [splitParasGo, if_neg hc, ih h.2 (c :: acc)]
      simp

theorem split_paragraphs_single (t : List Char) (h : spanOk t = true) :
    split_paragraphs t = [t] := by
  have hnd : foldSt .first t ≠ .dead := by
    rw [spanOk_iff_rank] at h
    intro h2
    rw [h2] at h
    simp [rank] at h
  have := splitParasGo_no_break t (noBreakScan_of_foldSt t .first hnd) []
  simpa [split_paragraphs] using this

theorem rFirstGo_self (o : Char) (os : List Char) (s : List Char) :
    rFirstGo o os (o :: os) s = s := by
  induction s with
  | nil => rfl
  | cons c rest ih =>
    rw [rFirstGo]
    by_cases hp : (o :: os).isPrefixOf (c :: rest) = true
    · rw [if_pos hp]
      obtain ⟨t2, ht2⟩ := List.isPrefixOf_iff_prefix.mp hp
      have hdrop : rest.drop os.length = t2 := by
        rw [List.cons_append] at ht2
        injection ht2 with h1 h2
        rw [← h2, List.drop_left]
      rw [hdrop, ← ht2]
    · rw [if_neg hp, ih]

/-- Replacing the first occurrence of a pattern by the pattern itself is
the identity (also when the pattern is empty or absent). -/
theorem replaceFirst_self (s old : List Char) : replaceFirst s old old = s := by
  cases old with
  | nil => rfl
  | cons o os => exact rFirstGo_self o os s

theorem interAll_nil (s : List Char) : interAll [] s = s := by
  induction s with
  | nil => rfl
  | cons c rest ih => rw [interAll, ih]; rfl

theorem rAllGo_self (o : Char) (os : List Char) :
    ∀ n (s : List Char), s.length ≤ n → rAllGo o os (o :: os) s = s := by
  intro n
  induction n with
  | zero =>
    intro s hs
    have hnil : s = [] := List.length_eq_zero.mp (by omega)
    subst hnil
    simp [rAllGo]
  | succ n ih =>
    intro s hs
    cases s with
    | nil => simp [rAllGo]
    | cons c rest =>
      rw [rAllGo]
      by_cases hp : (o :: os).isPrefixOf (c :: rest) = true
      · rw [if_pos hp]
        obtain ⟨t2, ht2⟩ := List.isPrefixOf_iff_prefix.mp hp
        have hdrop : rest.drop os.length = t2 := by
          rw [List.cons_append] at ht2
          injection ht2 with h1 h2
          rw [← h2, List.drop_left]
        have ht2len : t2.length ≤ n := by
          have hlen := congrArg List.length ht2
          simp at hlen hs
          omega
        rw [hdrop, ih t2 ht2len, ← ht2]
      · rw [if_neg hp, ih rest (by simp at hs; omega)]

/-- Replacing every occurrence of a pattern by the pattern itself is the
identity. -/
theorem replaceAll_self (s old : List Char) : replaceAll s old old = s := by
  cases old with
  | nil =>
    show [] ++ interAll [] s = s
    rw [List.nil_append, interAll_nil]
  | cons o os => exact rAllGo_self o os s.length s (le_refl _)

theorem splitNl_ne_nil (s : List Char) : ∃ p ps, splitNl s = p :: ps := by
  induction s with
  | nil => exact ⟨[], [], rfl⟩
  | cons c rest ih =>
    rw [splitNl]
    by_cases hc : c = '\n'
    · rw [if_pos hc]; exact ⟨[], splitNl rest, rfl⟩
    · rw [if_neg hc]
      obtain ⟨p, ps, hps⟩ := ih
      rw [hps]
      exact ⟨c :: p, ps, rfl⟩

theorem joinSep_splitNl (s : List Char) : joinSep ['\n'] (splitNl s) = s := by
  induction s with
  | nil => rfl
  | cons c rest ih =>
    rw [splitNl]
    obtain ⟨p, ps, hps⟩ := splitNl_ne_nil rest
    rw [hps] at ih
    by_cases hc : c = '\n'
    · rw [if_pos hc, hps, joinSep, ih, hc]
      simp
    · rw [if_neg hc, hps]
      cases ps with
      | nil =>
        rw [joinSep] at ih ⊢
        rw [ih]
      | cons q qs =>
        rw [joinSep] at ih ⊢
        rw [← ih]
        simp

theorem map_self_of_eq (f : List Char → List Char) (l : List (List Char))
    (h : ∀ x ∈ l, f x = x) : l.map f = l := by
  induction l with
  | nil => rfl
  | cons x xs ih =>
    rw [List.map_cons, h x (by simp), ih (fun y hy => h y (by simp [hy]))]

theorem replaceFirst_id_line (line : List Char) :
    replaceFirst line (pstrip line)
      (if (pstrip line).isEmpty then [] else pstrip line) = line := by
  by_cases h : (pstrip line).isEmpty = true
  · rw [if_pos h]
    have h2 : pstrip line = [] := by simpa using h
    rw [h2]
    rfl
  · rw [if_neg h]
    exact replaceFirst_self line (pstrip line)

/-- Line-wise translation with the identity lookup is the identity on any
content. -/
theorem trans_linewise_id (content : List Char) :
    trans_linewise (fun s => s) content = content := by
  unfold trans_linewise
  rw [map_self_of_eq _ (splitNl content) (fun x _ => replaceFirst_id_line x)]
  exact joinSep_splitNl content

/-- Paragraph-wise translation with the identity lookup is the identity on
any paragraph-break-free span text. -/
theorem trans_parwise_id (t : List Char) (h : spanOk t = true) :
    trans_parwise (fun s => s) t = t := by
  unfold trans_parwise
  rw [split_paragraphs_single t h, List.map_cons, List.map_nil]
  show joinSep ['\n', '\n'] [replaceAll t (stripNlCr t) (stripNlCr t)] = t
  rw [replaceAll_self]
  rfl

theorem command_re_search_facts (s k v : List Char)
    (h : command_re_search s = some (k, v)) :
    (∀ c ∈ v, c ∈ s) ∧ (∃ w, v = pstrip w) := by
  induction s with
  | nil => simp [command_re_search] at h
  | cons c0 rest ih =>
    rw [command_re_search] at h
    rcases hm : commandMatchAt (c0 :: rest) with _ | r
    · rw [hm] at h
      obtain ⟨h1, h2⟩ := ih h
      exact ⟨fun c hc => List.mem_cons.mpr (Or.inr (h1 c hc)), h2⟩
    · rw [hm] at h
      injection h with h2
      subst h2
      simp only [commandMatchAt] at hm
      rcases hj : lastColonPos (((c0 :: rest).takeWhile isKeyChar).drop 1) with _ | j
      · rw [hj] at hm; simp at hm
      · rw [hj] at hm
        injection hm with hm2
        injection hm2 with ha hb
        refine ⟨?_, ⟨(c0 :: rest).drop (j + 2), hb.symm⟩⟩
        intro c hc
        rw [← hb] at hc
        exact List.drop_subset (j + 2) (c0 :: rest)
          (mem_of_mem_pstrip ((c0 :: rest).drop (j + 2)) c hc)

theorem goodLine_decomp (l : List Char) (hg : goodLine l = true)
    (h0 : (pstrip l).isEmpty = false) :
    ∃ body, l = body ++ ['\n'] ∧ '\n' ∉ body := by
  obtain ⟨hgl, hct⟩ := goodLine_body l hg h0
  have hne : l ≠ [] := by
    intro h
    rw [h] at hgl
    simp at hgl
  refine ⟨l.dropLast, ?_, ?_⟩
  · have h1 := List.dropLast_append_getLast hne
    have h2 : l.getLast hne = '\n' := by
      rw [List.getLast?_eq_getLast l hne] at hgl
      exact Option.some.inj hgl
    rw [← h2]
    exact h1.symm
  · intro hmem
    have : l.dropLast.contains '\n' = true := by simpa using hmem
    rw [this] at hct
    simp at hct

theorem pstrip_drop_newline (l body : List Char) (hl : l = body ++ ['\n'])
    (hnl : '\n' ∉ body) : pstrip l = pstrip body ∧ '\n' ∉ pstrip l := by
  have hws : ∀ c ∈ ['\n'], isPySpace c = true := by
    intro c hc
    simp at hc
    rw [hc]
    decide
  have hpb : pstrip l = pstrip body := by rw [hl]; exact pstrip_append_ws body ['\n'] hws
  refine ⟨hpb, fun hmem => hnl ?_⟩
  rw [hpb] at hmem
  exact mem_of_mem_pstrip body '\n' hmem

theorem spanOk_of_pstrip (v : List Char) (hv : v ≠ []) (hw : ∃ w, v = pstrip w)
    (hnl : '\n' ∉ v) : spanOk v = true := by
  obtain ⟨w, hvw⟩ := hw
  have hex : ∃ c ∈ v, isPySpace c = false := by
    cases hvv : v with
    | nil => exact absurd hvv hv
    | cons c t =>
      refine ⟨c, by simp, ?_⟩
      rw [hvv] at hvw
      exact pstrip_head_not_space w c t hvw.symm
  unfold spanOk
  rw [foldSt_reach_good v hnl hex .first (by simp)]

theorem spanOk_content_line (l : List Char) (hg : goodLine l = true)
    (h0 : (pstrip l).isEmpty = false) : spanOk l = true := by
  obtain ⟨body, hl, hnl⟩ := goodLine_decomp l hg h0
  obtain ⟨hpb, _⟩ := pstrip_drop_newline l body hl hnl
  have hex : ∃ c ∈ body, isPySpace c = false := by
    refine pstrip_ne_nil_nonws body ?_
    rw [← hpb]
    simpa using h0
  have hgood : foldSt .first body = .good := foldSt_reach_good body hnl hex .first (by simp)
  unfold spanOk
  rw [hl, foldSt_append, hgood]
  rfl

theorem spanOk_value (l k v : List Char) (hg : goodLine l = true)
    (h0 : (pstrip l).isEmpty = false)
    (hm : command_re_search (pstrip l) = some (k, v)) (hv : v ≠ []) :
    spanOk v = true := by
  obtain ⟨body, hl, hnl⟩ := goodLine_decomp l hg h0
  obtain ⟨hmem, hw⟩ := command_re_search_facts (pstrip l) k v hm
  obtain ⟨_, hnp⟩ := pstrip_drop_newline l body hl hnl
  exact spanOk_of_pstrip v hv hw (fun hc => hnp (hmem '\n' hc))

/-- The invariant carried through the merger for the amended reconstruction
claim: every span is raw or translatable, and translatable spans are
paragraph-break free. -/
def chunkOk (k : String) (t : List Char) : Prop :=
  (k = "raw" ∨ k = "translatable") ∧ (k = "translatable" → spanOk t = true)

theorem chunkOk_append (k : String) (t1 t2 : List Char)
    (h1 : chunkOk k t1) (h2 : chunkOk k t2) : chunkOk k (t1 ++ t2) :=
  ⟨h1.1, fun hk => spanOk_append t1 t2 (h1.2 hk) (h2.2 hk)⟩

theorem chunkOk_raw (t : List Char) : chunkOk "raw" t :=
  ⟨Or.inl rfl, fun hk => absurd hk (by decide)⟩

theorem parseLine_chunkOk (st : PState) (l : List Char) (hg : goodLine l = true) :
    ∀ p ∈ (parseLine st l).1, chunkOk p.1 p.2 := by
  intro p hp
  rcases parseLine_cases st l with ⟨h0, h⟩ | h | ⟨key, value, h0, hm, h⟩ | ⟨h0, h⟩ <;>
    rw [h] at hp
  · simp at hp; subst hp; exact chunkOk_raw _
  · simp at hp; subst hp; exact chunkOk_raw _
  · by_cases hv : value.isEmpty = true
    · rw [if_pos hv] at hp
      simp at hp
      rcases hp with hp | hp <;> subst hp <;> exact chunkOk_raw _
    · rw [if_neg hv] at hp
      simp at hp
      rcases hp with hp | hp | hp | hp <;> subst hp
      · exact chunkOk_raw _
      · exact chunkOk_raw _
      · exact ⟨Or.inr rfl, fun _ =>
          spanOk_value l key value hg h0 hm (by simpa using hv)⟩
      · exact chunkOk_raw _
  · simp at hp; subst hp
    exact ⟨Or.inr rfl, fun _ => spanOk_content_line l hg h0⟩

theorem parse_chunkOk (lines : List (List Char))
    (hg : ∀ l ∈ lines, goodLine l = true) :
    ∀ p ∈ parse_source_structure lines, chunkOk p.1 p.2 :=
  mergeSpans_mem_prop chunkOk chunkOk_append _
    (parseLinesAux_mem lines chunkOk
      (fun st l hl => parseLine_chunkOk st l (hg l hl)) initState)

theorem translate_chunks_id (parwise : Bool) (spans : List Chunk)
    (h : ∀ p ∈ spans, chunkOk p.1 p.2) :
    translate_chunks parwise (fun s => s) spans = .ok (textConcat spans) := by
  induction spans with
  | nil => rfl
  | cons p rest ih =>
    obtain ⟨k, t⟩ := p
    have hk := h (k, t) (by simp)
    have hr := ih (fun q hq => h q (by simp [hq]))
    rcases hk.1 with h1 | h1 <;> subst h1
    · simp [translate_chunks, hr, textConcat_cons, Except.map]
    · have hok : spanOk t = true := hk.2 rfl
      cases parwise
      · simp [translate_chunks, hr, Except.map, trans_linewise_id, textConcat_cons]
      · simp [translate_chunks, hr, Except.map, trans_parwise_id t hok, textConcat_cons]

theorem parse_textConcat (lines : List (List Char))
    (hg : ∀ l ∈ lines, goodLine l = true) :
    textConcat (parse_source_structure lines) = joinLines lines := by
  rw [parse_source_structure, mergeSpans_textConcat]
  exact parseLinesAux_textConcat lines hg initState

/-- Counterexample to C2 as stated: on the single-line document " \n",
reconstruction with the identity lookup yields "\n", not the document. -/
theorem C2_untranslated_identity_counterexample :
    translate_chunks false (fun s => s) (parse_source_structure [[' ', '\n']]) ≠
      Except.ok (joinLines [[' ', '\n']]) ∧
    translate_chunks true (fun s => s) (parse_source_structure [[' ', '\n']]) ≠
      Except.ok (joinLines [[' ', '\n']]) := by
  constructor <;> intro h
  · rw [show translate_chunks false (fun s => s) (parse_source_structure [[' ', '\n']]) =
      Except.ok ['\n'] from rfl] at h
    injection h with h2
    exact absurd h2 (by decide)
  · rw [show translate_chunks true (fun s => s) (parse_source_structure [[' ', '\n']]) =
      Except.ok ['\n'] from rfl] at h
    injection h with h2
    exact absurd h2 (by decide)

/-- Claim C2 (amended): for every well-formed document (`goodLine` lines),
running the full reconstruction (parse into spans, merge, copy raw spans
verbatim, translate translatable spans) with an identity lookup produces
output byte-identical to the document, in line-wise and paragraph-wise
modes alike. -/
theorem C2_untranslated_identity_amended (lines : List (List Char))
    (hg : ∀ l ∈ lines, goodLine l = true) (parwise : Bool) :
    translate_chunks parwise (fun s => s) (parse_source_structure lines) =
      Except.ok (joinLines lines) := by
  rw [translate_chunks_id parwise _ (parse_chunkOk lines hg), parse_textConcat lines hg]

/-- Witness for amended C2 at a concrete document, in both modes. -/
theorem C2_untranslated_identity_amended_witness :
    translate_chunks false (fun s => s) (parse_source_structure
      ["name: home\n".toList, "---\n".toList, "body: one\n".toList, "text\n".toList,
        ['\n'], "more\n".toList]) =
      Except.ok (joinLines
        ["name: home\n".toList, "---\n".toList, "body: one\n".toList, "text\n".toList,
          ['\n'], "more\n".toList]) ∧
    translate_chunks true (fun s => s) (parse_source_structure
      ["name: home\n".toList, "---\n".toList, "body: one\n".toList, "text\n".toList,
        ['\n'], "more\n".toList]) =
      Except.ok (joinLines
        ["name: home\n".toList, "---\n".toList, "body: one\n".toList, "text\n".toList,
          ['\n'], "more\n".toList]) :=
  ⟨C2_untranslated_identity_amended _ (by decide) false,
    C2_untranslated_identity_amended _ (by decide) true⟩

theorem dropWhile_idem (p : Char → Bool) (s : List Char) :
    List.dropWhile p (List.dropWhile p s) = List.dropWhile p s := by
  rcases h : List.dropWhile p s with _ | ⟨c, t⟩
  · rfl
  · rw [List.dropWhile_cons, if_neg (by simp [dropWhile_head_false p s c t h])]

theorem rstrip_idem (s : List Char) : rstrip (rstrip s) = rstrip s := by
  unfold rstrip
  rw [List.reverse_reverse, dropWhile_idem]

theorem pstrip_idem (s : List Char) : pstrip (pstrip s) = pstrip s := by
  have hl : lstrip (pstrip s) = pstrip s := by
    rcases h : pstrip s with _ | ⟨c, t⟩
    · rfl
    · unfold lstrip
      rw [List.dropWhile_cons, if_neg (by simp [pstrip_head_not_space s c t h])]
  show rstrip (lstrip (pstrip s)) = pstrip s
  rw [hl]
  show rstrip (rstrip (lstrip s)) = pstrip s
  rw [rstrip_idem]
  rfl

theorem mem_of_mem_takeWhile (p : Char → Bool) (s : List Char) (c : Char)
    (h : c ∈ List.takeWhile p s) : c ∈ s := by
  induction s with
  | nil => simp [List.takeWhile] at h
  | cons d rest ih =>
    rw [List.takeWhile_cons] at h
    by_cases hd : p d = true
    · rw [if_pos hd] at h
      rcases List.mem_cons.mp h with h1 | h1
      · simp [h1]
      · simp [ih h1]
    · rw [if_neg (by simpa using hd)] at h
      simp at h

theorem lastColonPos_some_mem (w : List Char) (j : Nat)
    (h : lastColonPos w = some j) : ':' ∈ w := by
  induction w generalizing j with
  | nil => simp [lastColonPos] at h
  | cons c rest ih =>
    rw [lastColonPos] at h
    rcases hr : lastColonPos rest with _ | j2
    · rw [hr] at h
      by_cases hc : c = ':'
      · simp [hc]
      · rw [if_neg hc] at h; simp at h
    · rw [hr] at h
      simp [ih j2 hr]

theorem lastColonPos_lt (w : List Char) (j : Nat)
    (h : lastColonPos w = some j) : j < w.length := by
  induction w generalizing j with
  | nil => simp [lastColonPos] at h
  | cons c rest ih =>
    rw [lastColonPos] at h
    rcases hr : lastColonPos rest with _ | j2
    · rw [hr] at h
      by_cases hc : c = ':'
      · rw [if_pos hc] at h
        injection h with h2
        rw [← h2]
        simp
      · rw [if_neg hc] at h; simp at h
    · rw [hr] at h
      injection h with h2
      rw [← h2]
      have := ih j2 hr
      simp
      omega

theorem commandMatchAt_none_of_no_colon (s : List Char) (h : ':' ∉ s) :
    commandMatchAt s = none := by
  simp only [commandMatchAt]
  rcases hj : lastColonPos ((s.takeWhile isKeyChar).drop 1) with _ | j
  · rfl
  · exfalso
    refine h ?_
    exact mem_of_mem_takeWhile isKeyChar s ':'
      (List.drop_subset 1 (s.takeWhile isKeyChar) (lastColonPos_some_mem _ j hj))

theorem command_re_search_none_of_no_colon (s : List Char) (h : ':' ∉ s) :
    command_re_search s = none := by
  induction s with
  | nil => rfl
  | cons c rest ih =>
    rw [command_re_search, commandMatchAt_none_of_no_colon (c :: rest) h]
    exact ih (fun hm => h (by simp [hm]))

theorem hashRun_cons_ne (c : Char) (t : List Char) (hc : c ≠ '#') :
    hashRun (c :: t) = 0 := by
  simp [hashRun, List.takeWhile_cons, hc]

theorem block2re_search_false_of_head (s : List Char) (c : Char) (t : List Char)
    (h : rstrip s = c :: t) (hc : c ≠ '#') : block2re_search s = false := by
  simp only [block2re_search]
  rw [h, hashRun_cons_ne c t hc]
  rw [if_neg (by simp)]
  simp

/-- Counterexample to C3 as stated: the line "### name ###" (exactly 3
hashes on each side) does not match `block2re` — the pattern
`^###(#+)...###(#+)\s*$` needs a fourth hash on each side — so it does not
start a new block; the parser classifies it as translatable content. -/
theorem C3_block_tag_counterexample :
    block2re_search (pstrip "### name ###\n".toList) = false ∧
    parse_source_structure_pre ["### name ###\n".toList] =
      [("translatable", "### name ###\n".toList)] := by
  decide

/-- Claim C3 (amended): the fenced block-tag pattern requires at least four
hash signs on each side (`###` followed by `(#+)`); extra hashes beyond
four are allowed.  Every line whose stripped text matches it starts a new
block: the lines-in-block count and the content flag are reset and the
original line is emitted as a single raw span. -/
theorem C3_block_tag_amended (st : PState) (l : List Char)
    (hb : block2re_search (pstrip l) = true) :
    parseLine st l = ([("raw", l)], ⟨0, false, some l⟩) := by
  have h0 : ¬ ((pstrip l).isEmpty = true) := by
    intro hne
    have hemp : pstrip l = [] := by simpa using hne
    rw [hemp] at hb
    exact absurd hb (by decide)
  simp only [parseLine]
  rw [if_neg h0, if_pos (by simp [hb])]

/-- Witness for amended C3: a concrete four-hash block tag resets the
state and is emitted raw. -/
theorem C3_block_tag_amended_witness :
    block2re_search (pstrip "#### intro ####\n".toList) = true ∧
    parseLine initState "#### intro ####\n".toList =
      ([("raw", "#### intro ####\n".toList)],
        ⟨0, false, some "#### intro ####\n".toList⟩) :=
  ⟨by decide, C3_block_tag_amended initState _ (by decide)⟩

/-- Claim C6: parsing the single line "title: Hello World\n" as the first
line of a block yields exactly the span sequence (raw,"title:"), (raw," "),
(translatable,"Hello World"), (raw,"\n") — the `blocks` list built by
`__parse_source_structure` before neighbour merging. -/
theorem C6_key_value_extraction :
    parse_source_structure_pre ["title: Hello World\n".toList] =
      [("raw", "title:".toList), ("raw", [' ']),
        ("translatable", "Hello World".toList), ("raw", ['\n'])] := by
  decide

/-- Claim C10: on a first-of-block line whose stripped text has a
key:value match (possibly at an interior position, extending to the end of
the line), the parser emits spans only for the matched portion — raw key
and colon, raw space, translatable value, raw newline — so any text before
the matched key appears in no emitted span. -/
theorem C10_interior_match_drops_text (st : PState) (l key value : List Char)
    (h0 : (pstrip l).isEmpty = false)
    (hb : (line_starts_new_block (pstrip l) st.prev_line ||
      block2re_search (pstrip l)) = false)
    (hc : st.count_lines_block = 0) (hic : st.is_content = false)
    (hm : command_re_search (pstrip l) = some (key, value)) (hv : value ≠ []) :
    (parseLine st l).1 =
      [("raw", key ++ [':']), ("raw", [' ']), ("translatable", value),
        ("raw", ['\n'])] := by
  simp only [parseLine]
  rw [if_neg (by simp [h0]), if_neg (by simp [hb]),
    if_pos (show st.count_lines_block + 1 = 1 ∧ st.is_content = false from
      ⟨by rw [hc], hic⟩), hm]
  have hve : value.isEmpty = false := by simpa using hv
  simp [hve]

/-- Witness for C10 at the concrete line "foo bar: baz\n": the match is at
the interior "bar: baz" and "foo " is dropped from the emitted spans. -/
theorem C10_interior_match_drops_text_witness :
    (parseLine initState "foo bar: baz\n".toList).1 =
      [("raw", "bar:".toList), ("raw", [' ']), ("translatable", "baz".toList),
        ("raw", ['\n'])] :=
  C10_interior_match_drops_text initState "foo bar: baz\n".toList "bar".toList
    "baz".toList (by decide) (by decide) rfl rfl (by decide) (by decide)

/-- The most recent non-blank line of a processed prefix (blank lines never
update `prev_line`). -/
def lastNonBlank (lines : List (List Char)) : Option (List Char) :=
  (lines.filter (fun l => !(pstrip l).isEmpty)).getLast?

theorem parseLine_prev_blank (st : PState) (l : List Char)
    (h0 : (pstrip l).isEmpty = true) : (parseLine st l).2 = st := by
  simp only [parseLine]
  rw [if_pos h0]

theorem parseLine_prev_nonblank (st : PState) (l : List Char)
    (h0 : (pstrip l).isEmpty = false) : (parseLine st l).2.prev_line = some l := by
  rcases parseLine_cases st l with ⟨h1, h⟩ | h | ⟨k, v, h1, hm, h⟩ | ⟨h1, h⟩
  · rw [h1] at h0; simp at h0
  · rw [h]
  · rw [h]
  · rw [h]

theorem runState_prev (lines : List (List Char)) : ∀ st : PState,
    (runState st lines).prev_line =
      match lastNonBlank lines with
      | some l => some l
      | none => st.prev_line := by
  induction lines with
  | nil => intro st; simp [runState, lastNonBlank]
  | cons hd tl ih =>
    intro st
    rw [runState]
    by_cases h0 : (pstrip hd).isEmpty = true
    · rw [parseLine_prev_blank st hd h0, ih st]
      unfold lastNonBlank
      rw [List.filter_cons, if_neg (by simp [h0])]
    · rw [ih ((parseLine st hd).2)]
      have h0f : (pstrip hd).isEmpty = false := by simpa using h0
      unfold lastNonBlank
      rw [List.filter_cons, if_pos (by simp [h0f])]
      rcases hf : tl.filter (fun l => !(pstrip l).isEmpty) with _ | ⟨x, xs⟩
      · simp [lastNonBlank, hf, parseLine_prev_nonblank st hd h0f]
      · obtain ⟨y, hy⟩ : ∃ y, (x :: xs).getLast? = some y :=
          ⟨(x :: xs).getLast (by simp), List.getLast?_eq_getLast _ (by simp)⟩
        simp [lastNonBlank, hf, hy]

theorem runState_prev_init (lines : List (List Char)) :
    (runState initState lines).prev_line = lastNonBlank lines := by
  rw [runState_prev lines initState]
  rcases lastNonBlank lines with _ | l <;> rfl

theorem line_starts_new_block_iff (line : List Char) (prev : Option (List Char))
    (hd3 : 3 ≤ (pstrip line).length)
    (hdash : (pstrip line).all (fun c => c = '-') = true) :
    (line_starts_new_block (pstrip line) prev = true ↔
      ∃ p, prev = some p ∧ p ≠ [] ∧ ':' ∈ p) := by
  cases prev with
  | none => simp [line_starts_new_block]
  | some p =>
    simp only [line_starts_new_block]
    by_cases hp : (p.isEmpty || !(p.contains ':')) = true
    · rw [if_pos hp]
      simp at hp ⊢
      intro h1 h2
      rcases hp with hp | hp
      · exact absurd hp h1
      · exact absurd h2 hp
    · rw [if_neg hp]
      simp at hp
      rw [pstrip_idem]
      simp [hd3, hdash, hp]

/-- Counterexample to C4 as stated: in the document ["a: b\n", "\n",
"---\n"] the line immediately preceding the dash line is blank (contains no
colon), yet the parser treats the dash line as a new-block raw span,
because blank lines do not update the remembered previous line. -/
theorem C4_dash_boundary_counterexample :
    (':' ∉ ['\n']) ∧
    parse_source_structure_pre ["a: b\n".toList, ['\n'], "---\n".toList] =
      [("raw", "a:".toList), ("raw", [' ']), ("translatable", ['b']),
        ("raw", ['\n']), ("raw", ['\n']), ("raw", "---\n".toList)] := by
  decide

/-- Claim C4 (amended): a line whose stripped text is 3 or more dashes and
nothing else is classified as a new-block raw span if and only if the most
recent non-blank line of the document so far exists, is non-empty and
contains a colon (blank lines do not update the remembered previous line);
otherwise it is classified under the ordinary content rule (a dash-only
line never matches the key:value pattern, so it becomes translatable). -/
theorem C4_dash_boundary_amended (pre : List (List Char)) (l : List Char)
    (hd3 : 3 ≤ (pstrip l).length)
    (hdash : (pstrip l).all (fun c => c = '-') = true) :
    ((parseLine (runState initState pre) l).1 = [("raw", l)] ↔
      ∃ p, lastNonBlank pre = some p ∧ p ≠ [] ∧ ':' ∈ p) ∧
    (¬ (∃ p, lastNonBlank pre = some p ∧ p ≠ [] ∧ ':' ∈ p) →
      (parseLine (runState initState pre) l).1 = [("translatable", l)]) := by
  have h0 : (pstrip l).isEmpty = false := by
    rcases hs : pstrip l with _ | ⟨c, t⟩
    · rw [hs] at hd3; simp at hd3
    · simp
  have hdashhead : ∃ c t, pstrip l = c :: t ∧ c = '-' := by
    rcases hs : pstrip l with _ | ⟨c, t⟩
    · rw [hs] at hd3; simp at hd3
    · refine ⟨c, t, rfl, ?_⟩
      rw [hs] at hdash
      simp [List.all_cons] at hdash
      exact hdash.1
  have hb2 : block2re_search (pstrip l) = false := by
    obtain ⟨c, t, hct, hcd⟩ := hdashhead
    have hrs : rstrip (pstrip l) = c :: t := by
      show rstrip (rstrip (lstrip l)) = c :: t
      rw [rstrip_idem]
      exact hct
    exact block2re_search_false_of_head (pstrip l) c t hrs (by rw [hcd]; decide)
  have hnocolon : ':' ∉ pstrip l := by
    intro hmem
    have := hdash
    rw [List.all_eq_true] at this
    have h2 := this ':' hmem
    simp at h2
  have hsearch : command_re_search (pstrip l) = none :=
    command_re_search_none_of_no_colon (pstrip l) hnocolon
  have hiff := line_starts_new_block_iff l (runState initState pre).prev_line hd3 hdash
  rw [runState_prev_init pre] at hiff
  constructor
  · constructor
    · intro hspans
      by_contra hno
      have hbf : line_starts_new_block (pstrip l) (runState initState pre).prev_line =
          false := by
        rw [Bool.eq_false_iff]
        intro htrue
        rw [runState_prev_init pre] at htrue
        exact hno (hiff.mp htrue)
      have : (parseLine (runState initState pre) l).1 = [("translatable", l)] := by
        simp only [parseLine]
        rw [if_neg (by simp [h0]), if_neg (by simp [hbf, hb2])]
        by_cases hcond : (runState initState pre).count_lines_block + 1 = 1 ∧
            (runState initState pre).is_content = false
        · rw [if_pos hcond, hsearch]
        · rw [if_neg hcond]
      rw [this] at hspans
      injection hspans with h1 h2
      injection h1 with h3
      exact absurd h3 (by decide)
    · intro hex
      have hbt : line_starts_new_block (pstrip l) (runState initState pre).prev_line =
          true := by
        rw [runState_prev_init pre]
        exact hiff.mpr hex
      simp only [parseLine]
      rw [if_neg (by simp [h0]), if_pos (by simp [hbt])]
  · intro hno
    have hbf : line_starts_new_block (pstrip l) (runState initState pre).prev_line =
        false := by
      rw [Bool.eq_false_iff]
      intro htrue
      rw [runState_prev_init pre] at htrue
      exact hno (hiff.mp htrue)
    simp only [parseLine]
    rw [if_neg (by simp [h0]), if_neg (by simp [hbf, hb2])]
    by_cases hcond : (runState initState pre).count_lines_block + 1 = 1 ∧
        (runState initState pre).is_content = false
    · rw [if_pos hcond, hsearch]
    · rw [if_neg hcond]

/-- Witness for amended C4: after ["a: b\n", "\n"] the most recent
non-blank line is "a: b\n" (which has a colon), so "---\n" is a raw
boundary. -/
theorem C4_dash_boundary_amended_witness :
    (parseLine (runState initState ["a: b\n".toList, ['\n']]) "---\n".toList).1 =
      [("raw", "---\n".toList)] :=
  (C4_dash_boundary_amended ["a: b\n".toList, ['\n']] "---\n".toList
    (by decide) (by decide)).1.mpr ⟨"a: b\n".toList, by decide, by decide, by decide⟩

theorem take_takeWhile (p : Char → Bool) (s : List Char) :
    ∀ n, n ≤ (s.takeWhile p).length → s.take n = (s.takeWhile p).take n := by
  induction s with
  | nil => intro n hn; simp [List.takeWhile] at hn ⊢
  | cons c rest ih =>
    intro n hn
    rw [List.takeWhile_cons] at hn ⊢
    by_cases hc : p c = true
    · rw [if_pos hc] at hn ⊢
      cases n with
      | zero => simp
      | succ m =>
        rw [List.take_succ_cons, List.take_succ_cons,
          ih m (by simp at hn; omega)]
    · rw [if_neg (by simpa using hc)] at hn
      simp at hn
      rw [hn]
      simp

theorem command_re_search_key (s k v : List Char)
    (h : command_re_search s = some (k, v)) :
    k ≠ [] ∧ ∀ c ∈ k, isKeyChar c = true := by
  induction s with
  | nil => simp [command_re_search] at h
  | cons c0 rest ih =>
    rw [command_re_search] at h
    rcases hm : commandMatchAt (c0 :: rest) with _ | r
    · rw [hm] at h; exact ih h
    · rw [hm] at h
      injection h with h2
      subst h2
      simp only [commandMatchAt] at hm
      rcases hj : lastColonPos (((c0 :: rest).takeWhile isKeyChar).drop 1) with _ | j
      · rw [hj] at hm; simp at hm
      · rw [hj] at hm
        injection hm with hm2
        injection hm2 with ha hb
        have hjlt := lastColonPos_lt _ j hj
        have hlen : j + 1 ≤ ((c0 :: rest).takeWhile isKeyChar).length := by
          rw [List.length_drop] at hjlt
          omega
        have htake := take_takeWhile isKeyChar (c0 :: rest) (j + 1) hlen
        constructor
        · intro hk
          rw [← ha, List.take_succ_cons] at hk
          simp at hk
        · intro c hc
          rw [← ha, htake] at hc
          exact takeWhile_all isKeyChar (c0 :: rest) c
            (List.take_subset (j + 1) _ hc)

/-- Counterexample to C5 as stated: '?' (0x3F) lies outside
{letters, digits, dot, dash, underscore}, yet "a?b: c" matches the
key:value pattern with key "a?b" — the class `[a-zA-Z0-9.-_]` denotes the
whole range 0x2E to 0x5F — so the first-of-block line "a?b: c\n" is NOT
classified as content. -/
theorem C5_key_class_counterexample :
    command_re_search (pstrip "a?b: c\n".toList) = some ("a?b".toList, ['c']) ∧
    parse_source_structure_pre ["a?b: c\n".toList] =
      [("raw", "a?b:".toList), ("raw", [' ']), ("translatable", ['c']),
        ("raw", ['\n'])] := by
  decide

/-- Claim C5 (amended): the key of every successful key:value match is a
nonempty string of characters from the class the regex actually denotes —
letters, digits, and the ASCII range '.' (0x2E) through '_' (0x5F) (the
`.-_` is a character range: it admits ':', '?', '@', '[' and excludes the
dash) — and a first-of-block line that is not blank, not a boundary and has
no such match is classified as content. -/
theorem C5_key_class_amended :
    (∀ s k v, command_re_search s = some (k, v) →
      k ≠ [] ∧ ∀ c ∈ k, isKeyChar c = true) ∧
    (∀ (st : PState) (l : List Char),
      (pstrip l).isEmpty = false →
      (line_starts_new_block (pstrip l) st.prev_line ||
        block2re_search (pstrip l)) = false →
      st.count_lines_block = 0 → st.is_content = false →
      command_re_search (pstrip l) = none →
      parseLine st l = ([("translatable", l)],
        ⟨st.count_lines_block + 1, true, some l⟩)) := by
  constructor
  · exact command_re_search_key
  · intro st l h0 hb hc hic hm
    simp only [parseLine]
    rw [if_neg (by simp [h0]), if_neg (by simp [hb]),
      if_pos (show st.count_lines_block + 1 = 1 ∧ st.is_content = false from
        ⟨by rw [hc], hic⟩), hm]

/-- Witness for amended C5: the matched key "a?b" is made of class
characters, and a colon-free first line falls to the content rule. -/
theorem C5_key_class_amended_witness :
    ("a?b".toList ≠ [] ∧ ∀ c ∈ "a?b".toList, isKeyChar c = true) ∧
    parseLine initState "no colon here\n".toList =
      ([("translatable", "no colon here\n".toList)],
        ⟨1, true, some "no colon here\n".toList⟩) :=
  ⟨C5_key_class_amended.1 "a?b: c".toList "a?b".toList ['c'] (by decide),
    C5_key_class_amended.2 initState "no colon here\n".toList (by decide) (by decide)
      rfl rfl (by decide)⟩

theorem charCmp_eq_iff (a b : Char) : charCmp a b = .eq ↔ a = b := by
  unfold charCmp
  split_ifs with h1 h2
  · constructor
    · intro h; simp at h
    · intro h; subst h; exact absurd h1 (lt_irrefl a)
  · constructor
    · intro h; simp at h
    · intro h; subst h; exact absurd h2 (lt_irrefl a)
  · constructor
    · intro _; exact le_antisymm (not_lt.mp h2) (not_lt.mp h1)
    · intro _; rfl

theorem charCmp_swap (a b : Char) : charCmp a b = .lt ↔ charCmp b a = .gt := by
  unfold charCmp
  rcases lt_trichotomy a b with h | h | h
  · rw [if_pos h, if_neg (lt_asymm h), if_pos h]
    simp
  · subst h
    rw [if_neg (lt_irrefl a)]
    simp
  · rw [if_neg (lt_asymm h), if_pos h, if_pos h]
    simp

theorem charCmp_lt_trans (a b c : Char) (h1 : charCmp a b = .lt)
    (h2 : charCmp b c = .lt) : charCmp a c = .lt := by
  have hab : a < b := by
    by_contra h
    unfold charCmp at h1
    rw [if_neg h] at h1
    split_ifs at h1 <;> simp at h1
  have hbc : b < c := by
    by_contra h
    unfold charCmp at h2
    rw [if_neg h] at h2
    split_ifs at h2 <;> simp at h2
  unfold charCmp
  rw [if_pos (lt_trans hab hbc)]

theorem listCmp_eq_iff {α : Type} (cmp : α → α → Ordering)
    (heq : ∀ a b, cmp a b = .eq ↔ a = b) :
    ∀ l1 l2 : List α, listCmp cmp l1 l2 = .eq ↔ l1 = l2 := by
  intro l1
  induction l1 with
  | nil =>
    intro l2
    cases l2 with
    | nil => simp [listCmp]
    | cons b bs => simp [listCmp]
  | cons a as ih =>
    intro l2
    cases l2 with
    | nil => simp [listCmp]
    | cons b bs =>
      rw [listCmp]
      rcases hc : cmp a b with _ | _ | _
      · simp only [hc]
        constructor
        · intro h; simp at h
        · intro h
          injection h with h1 h2
          have := (heq a b).mpr h1
          rw [hc] at this
          simp at this
      · have hab : a = b := (heq a b).mp hc
        subst hab
        simp only [hc]
        rw [ih bs]
        simp
      · simp only [hc]
        constructor
        · intro h; simp at h
        · intro h
          injection h with h1 h2
          have := (heq a b).mpr h1
          rw [hc] at this
          simp at this

theorem listCmp_swap {α : Type} (cmp : α → α → Ordering)
    (heq : ∀ a b, cmp a b = .eq ↔ a = b)
    (hswap : ∀ a b, cmp a b = .lt ↔ cmp b a = .gt) :
    ∀ l1 l2 : List α, listCmp cmp l1 l2 = .lt ↔ listCmp cmp l2 l1 = .gt := by
  intro l1
  induction l1 with
  | nil =>
    intro l2
    cases l2 with
    | nil => simp [listCmp]
    | cons b bs => simp [listCmp]
  | cons a as ih =>
    intro l2
    cases l2 with
    | nil => simp [listCmp]
    | cons b bs =>
      rw [listCmp, listCmp]
      rcases hc : cmp a b with _ | _ | _
      · have hba : cmp b a = .gt := (hswap a b).mp hc
        simp [hc, hba]
      · have hab : a = b := (heq a b).mp hc
        have hba : cmp b a = .eq := (heq b a).mpr hab.symm
        simp [hc, hba, ih bs]
      · have hba : cmp b a = .lt := (hswap b a).mpr hc
        simp [hc, hba]

theorem listCmp_lt_trans {α : Type} (cmp : α → α → Ordering)
    (heq : ∀ a b, cmp a b = .eq ↔ a = b)
    (htrans : ∀ a b c, cmp a b = .lt → cmp b c = .lt → cmp a c = .lt) :
    ∀ l1 l2 l3 : List α, listCmp cmp l1 l2 = .lt → listCmp cmp l2 l3 = .lt →
      listCmp cmp l1 l3 = .lt := by
  intro l1
  induction l1 with
  | nil =>
    intro l2 l3 h1 h2
    cases l3 with
    | nil =>
      cases l2 with
      | nil => simp [listCmp] at h1
      | cons b bs => simp [listCmp] at h2
    | cons c cs => simp [listCmp]
  | cons a as ih =>
    intro l2 l3 h1 h2
    cases l2 with
    | nil => simp [listCmp] at h1
    | cons b bs =>
      cases l3 with
      | nil => simp [listCmp] at h2
      | cons c cs =>
        rw [listCmp] at h1 h2 ⊢
        rcases hab : cmp a b with _ | _ | _ <;> simp only [hab] at h1
        · rcases hbc : cmp b c with _ | _ | _ <;> simp only [hbc] at h2
          · simp only [htrans a b c hab hbc]
          · have hBC := (heq b c).mp hbc
            subst hBC
            simp only [hab]
          · simp at h2
        · have hAB := (heq a b).mp hab
          subst hAB
          rcases hac : cmp a c with _ | _ | _ <;> simp only [hac] at h2 ⊢
          · exact ih bs cs h1 h2
          · simp at h2
        · simp at h1

theorem strCmp_eq_iff (a b : List Char) : strCmp a b = .eq ↔ a = b :=
  listCmp_eq_iff charCmp charCmp_eq_iff a b

theorem strCmp_swap (a b : List Char) : strCmp a b = .lt ↔ strCmp b a = .gt :=
  listCmp_swap charCmp charCmp_eq_iff charCmp_swap a b

theorem strCmp_lt_trans (a b c : List Char) :
    strCmp a b = .lt → strCmp b c = .lt → strCmp a c = .lt :=
  listCmp_lt_trans charCmp charCmp_eq_iff charCmp_lt_trans a b c

theorem listStrCmp_eq_iff (a b : List (List Char)) : listStrCmp a b = .eq ↔ a = b :=
  listCmp_eq_iff strCmp strCmp_eq_iff a b

theorem listStrCmp_swap (a b : List (List Char)) :
    listStrCmp a b = .lt ↔ listStrCmp b a = .gt :=
  listCmp_swap strCmp strCmp_eq_iff strCmp_swap a b

theorem listStrCmp_lt_trans (a b c : List (List Char)) :
    listStrCmp a b = .lt → listStrCmp b c = .lt → listStrCmp a c = .lt :=
  listCmp_lt_trans strCmp strCmp_eq_iff strCmp_lt_trans a b c

theorem tupCmp_swap (a b : List (List Char) × List Char) :
    tupCmp a b = .lt ↔ tupCmp b a = .gt := by
  unfold tupCmp
  rcases h1 : listStrCmp a.1 b.1 with _ | _ | _
  · have h2 : listStrCmp b.1 a.1 = .gt := (listStrCmp_swap a.1 b.1).mp h1
    simp [h1, h2]
  · have hab : a.1 = b.1 := (listStrCmp_eq_iff a.1 b.1).mp h1
    have h2 : listStrCmp b.1 a.1 = .eq := (listStrCmp_eq_iff b.1 a.1).mpr hab.symm
    simp [h1, h2, strCmp_swap a.2 b.2]
  · have h2 : listStrCmp b.1 a.1 = .lt := (listStrCmp_swap b.1 a.1).mpr h1
    simp [h1, h2]

theorem tupLe_total (a b : List (List Char) × List Char) :
    tupLe a b = true ∨ tupLe b a = true := by
  unfold tupLe leOfCmp
  rcases h : tupCmp a b with _ | _ | _
  · left; simp [h]
  · left; simp [h]
  · right
    have h2 : tupCmp b a = .lt := (tupCmp_swap b a).mpr h
    simp [h2]

theorem tupCmp_lt_trans (a b c : List (List Char) × List Char)
    (h1 : tupCmp a b = .lt) (h2 : tupCmp b c = .lt) : tupCmp a c = .lt := by
  unfold tupCmp at h1 h2 ⊢
  rcases hab : listStrCmp a.1 b.1 with _ | _ | _ <;> simp only [hab] at h1
  · rcases hbc : listStrCmp b.1 c.1 with _ | _ | _ <;> simp only [hbc] at h2
    · simp only [listStrCmp_lt_trans a.1 b.1 c.1 hab hbc]
    · have hBC := (listStrCmp_eq_iff b.1 c.1).mp hbc
      rw [← hBC]
      simp only [hab]
    · simp at h2
  · have hAB := (listStrCmp_eq_iff a.1 b.1).mp hab
    rw [hAB]
    rcases hbc : listStrCmp b.1 c.1 with _ | _ | _ <;> simp only [hbc] at h2 ⊢
    · exact strCmp_lt_trans a.2 b.2 c.2 h1 h2
    · simp at h2
  · simp at h1

theorem tupLe_trans (a b c : List (List Char) × List Char)
    (h1 : tupLe a b = true) (h2 : tupLe b c = true) : tupLe a c = true := by
  unfold tupLe leOfCmp at h1 h2 ⊢
  rcases hab : tupCmp a b with _ | _ | _ <;> simp only [hab] at h1
  · rcases hbc : tupCmp b c with _ | _ | _ <;> simp only [hbc] at h2
    · simp [tupCmp_lt_trans a b c hab hbc]
    · have := (tupCmp_swap b c)
      -- bc = eq: b = c via eq_iff for tupCmp
      have hbceq : b = c := by
        unfold tupCmp at hbc
        rcases hx : listStrCmp b.1 c.1 with _ | _ | _ <;> simp only [hx] at hbc
        · simp at hbc
        · have hfst := (listStrCmp_eq_iff b.1 c.1).mp hx
          have hsnd := (strCmp_eq_iff b.2 c.2).mp hbc
          exact Prod.ext hfst hsnd
        · simp at hbc
      rw [← hbceq]
      simp [hab]
    · simp at h2
  · have hab2 : a = b := by
      unfold tupCmp at hab
      rcases hx : listStrCmp a.1 b.1 with _ | _ | _ <;> simp only [hx] at hab
      · simp at hab
      · have hfst := (listStrCmp_eq_iff a.1 b.1).mp hx
        have hsnd := (strCmp_eq_iff a.2 b.2).mp hab
        exact Prod.ext hfst hsnd
      · simp at hab
    rw [hab2]
    exact h2
  · simp at h1

theorem insertSorted_perm {α : Type} (le : α → α → Bool) (x : α) (l : List α) :
    (insertSorted le x l).Perm (x :: l) := by
  induction l with
  | nil => exact List.Perm.refl _
  | cons y ys ih =>
    rw [insertSorted]
    by_cases h : le x y = true
    · rw [if_pos h]
    · rw [if_neg h]
      exact (ih.cons y).trans (List.Perm.swap x y ys)

theorem sortBy_perm {α : Type} (le : α → α → Bool) (l : List α) :
    (sortBy le l).Perm l := by
  induction l with
  | nil => exact List.Perm.refl _
  | cons x xs ih =>
    rw [sortBy]
    exact (insertSorted_perm le x (sortBy le xs)).trans (ih.cons x)

theorem insertSorted_pairwise {α : Type} (le : α → α → Bool)
    (htot : ∀ a b, le a b = true ∨ le b a = true)
    (htrans : ∀ a b c, le a b = true → le b c = true → le a c = true)
    (x : α) (l : List α) (h : l.Pairwise (fun a b => le a b = true)) :
    (insertSorted le x l).Pairwise (fun a b => le a b = true) := by
  induction l with
  | nil => simp [insertSorted]
  | cons y ys ih =>
    rw [insertSorted]
    rw [List.pairwise_cons] at h
    by_cases hxy : le x y = true
    · rw [if_pos hxy]
      rw [List.pairwise_cons]
      refine ⟨?_, List.pairwise_cons.mpr h⟩
      intro b hb
      rcases List.mem_cons.mp hb with h1 | h1
      · subst h1; exact hxy
      · exact htrans x y b hxy (h.1 b h1)
    · rw [if_neg hxy]
      rw [List.pairwise_cons]
      refine ⟨?_, ih h.2⟩
      intro b hb
      have hb2 := (insertSorted_perm le x ys).mem_iff.mp hb
      rcases List.mem_cons.mp hb2 with h1 | h1
      · rcases htot x y with h2 | h2
        · exact absurd h2 hxy
        · rw [h1]; exact h2
      · exact h.1 b h1

theorem sortBy_pairwise {α : Type} (le : α → α → Bool)
    (htot : ∀ a b, le a b = true ∨ le b a = true)
    (htrans : ∀ a b c, le a b = true → le b c = true → le a c = true)
    (l : List α) : (sortBy le l).Pairwise (fun a b => le a b = true) := by
  induction l with
  | nil => simp [sortBy]
  | cons x xs ih => exact insertSorted_pairwise le htot htrans x (sortBy le xs) ih

theorem rAllGo_singleton_cons (o : Char) (new : List Char) (c : Char)
    (rest : List Char) :
    rAllGo o [] new (c :: rest) =
      if c = o then new ++ rAllGo o [] new rest else c :: rAllGo o [] new rest := by
  rw [rAllGo]
  by_cases hc : c = o
  · rw [if_pos (by simp [List.isPrefixOf, hc]), if_pos hc]
    simp
  · rw [if_neg (by simp [List.isPrefixOf]; exact fun h => hc h.symm), if_neg hc]

theorem rAllGo_singleton_mem (o : Char) (new s : List Char) (c : Char)
    (h : c ∈ rAllGo o [] new s) : c ∈ s ∨ c ∈ new := by
  induction s with
  | nil => simp [rAllGo] at h
  | cons d rest ih =>
    rw [rAllGo_singleton_cons] at h
    by_cases hd : d = o
    · rw [if_pos hd] at h
      rcases List.mem_append.mp h with h1 | h1
      · exact Or.inr h1
      · rcases ih h1 with h2 | h2
        · exact Or.inl (by simp [h2])
        · exact Or.inr h2
    · rw [if_neg hd] at h
      rcases List.mem_cons.mp h with h1 | h1
      · exact Or.inl (by simp [h1])
      · rcases ih h1 with h2 | h2
        · exact Or.inl (by simp [h2])
        · exact Or.inr h2

theorem rAllGo_singleton_not_mem (o : Char) (new s : List Char) (c : Char)
    (hs : c ∉ s) (hn : c ∉ new) : c ∉ rAllGo o [] new s :=
  fun h => (rAllGo_singleton_mem o new s c h).elim hs hn

theorem rAllGo_singleton_elim (o : Char) (new s : List Char) (hn : o ∉ new) :
    o ∉ rAllGo o [] new s := by
  induction s with
  | nil => simp [rAllGo]
  | cons d rest ih =>
    rw [rAllGo_singleton_cons]
    by_cases hd : d = o
    · rw [if_pos hd]
      intro h
      rcases List.mem_append.mp h with h1 | h1
      · exact hn h1
      · exact ih h1
    · rw [if_neg hd]
      intro h
      rcases List.mem_cons.mp h with h1 | h1
      · exact hd h1.symm
      · exact ih h1

theorem rAllGo_singleton_keep (o : Char) (new s : List Char) (c : Char)
    (hs : c ∈ s) (hc : c ≠ o) : c ∈ rAllGo o [] new s := by
  induction s with
  | nil => simp at hs
  | cons d rest ih =>
    rw [rAllGo_singleton_cons]
    by_cases hd : d = o
    · rw [if_pos hd]
      rcases List.mem_cons.mp hs with h1 | h1
      · rw [h1] at hc; exact absurd hd hc
      · exact List.mem_append.mpr (Or.inr (ih h1))
    · rw [if_neg hd]
      rcases List.mem_cons.mp hs with h1 | h1
      · exact List.mem_cons.mpr (Or.inl h1)
      · exact List.mem_cons.mpr (Or.inr (ih h1))

theorem rAllGo_singleton_new_infix (o : Char) (new s : List Char)
    (hs : o ∈ s) : new <:+: rAllGo o [] new s := by
  induction s with
  | nil => simp at hs
  | cons d rest ih =>
    rw [rAllGo_singleton_cons]
    by_cases hd : d = o
    · rw [if_pos hd]
      exact List.infix_append [] new _
    · rw [if_neg hd]
      have hrest : o ∈ rest := by
        rcases List.mem_cons.mp hs with h1 | h1
        · exact absurd h1.symm hd
        · exact h1
      obtain ⟨u, v, huv⟩ := ih hrest
      exact ⟨d :: u, v, by rw [List.cons_append, List.cons_append, huv]⟩

theorem rAllGo_singleton_append (o : Char) (new a b : List Char) :
    rAllGo o [] new (a ++ b) = rAllGo o [] new a ++ rAllGo o [] new b := by
  induction a with
  | nil => simp [rAllGo]
  | cons c rest ih =>
    rw [List.cons_append, rAllGo_singleton_cons, rAllGo_singleton_cons]
    by_cases hc : c = o
    · rw [if_pos hc, if_pos hc, ih, List.append_assoc]
    · rw [if_neg hc, if_neg hc, ih, List.cons_append]

theorem rAllGo_singleton_no_occ (o : Char) (new s : List Char) (h : o ∉ s) :
    rAllGo o [] new s = s := by
  induction s with
  | nil => simp [rAllGo]
  | cons d rest ih =>
    rw [rAllGo_singleton_cons,
      if_neg (fun hd => h (by simp [hd]))]
    rw [ih (fun hm => h (by simp [hm]))]

theorem rAllGo_singleton_infix_preserved (o : Char) (new s p : List Char)
    (hp : p <:+: s) (hop : o ∉ p) : p <:+: rAllGo o [] new s := by
  obtain ⟨u, v, huv⟩ := hp
  rw [← huv, rAllGo_singleton_append, rAllGo_singleton_append,
    rAllGo_singleton_no_occ o new p hop]
  exact ⟨rAllGo o [] new u, rAllGo o [] new v, rfl⟩

theorem quotesEscapedFrom_rAllGo (s : List Char) :
    ∀ b : Bool, quotesEscapedFrom b (rAllGo '"' [] ['\\', '"'] s) = true := by
  induction s with
  | nil => intro b; simp [rAllGo, quotesEscapedFrom]
  | cons c rest ih =>
    intro b
    rw [rAllGo_singleton_cons]
    by_cases hc : c = '"'
    · rw [if_pos hc]
      show quotesEscapedFrom b ('\\' :: '"' :: rAllGo '"' [] ['\\', '"'] rest) = true
      rw [quotesEscapedFrom, if_neg (by simp), quotesEscapedFrom,
        if_neg (by decide)]
      exact ih _
    · rw [if_neg hc]
      rw [quotesEscapedFrom, if_neg (by simp [hc])]
      exact ih _

theorem escape_msg_no_ctrl (msg : List Char) :
    '\n' ∉ escape_msg msg ∧ '\t' ∉ escape_msg msg := by
  have h2 : '\n' ∉ rAllGo '\n' [] ['\\', 'n'] (rAllGo '\\' [] ['\\', '\\'] msg) :=
    rAllGo_singleton_elim _ _ _ (by decide)
  have h3nl : '\n' ∉ rAllGo '\t' [] ['\\', 't']
      (rAllGo '\n' [] ['\\', 'n'] (rAllGo '\\' [] ['\\', '\\'] msg)) :=
    rAllGo_singleton_not_mem _ _ _ _ h2 (by decide)
  have h3tab : '\t' ∉ rAllGo '\t' [] ['\\', 't']
      (rAllGo '\n' [] ['\\', 'n'] (rAllGo '\\' [] ['\\', '\\'] msg)) :=
    rAllGo_singleton_elim _ _ _ (by decide)
  exact ⟨rAllGo_singleton_not_mem _ _ _ _ h3nl (by decide),
    rAllGo_singleton_not_mem _ _ _ _ h3tab (by decide)⟩

theorem escape_msg_quotes (msg : List Char) :
    quotesEscaped (escape_msg msg) = true :=
  quotesEscapedFrom_rAllGo _ false

theorem escape_msg_infix_nl (msg : List Char) (h : '\n' ∈ msg) :
    ['\\', 'n'] <:+: escape_msg msg := by
  have h1 : '\n' ∈ rAllGo '\\' [] ['\\', '\\'] msg :=
    rAllGo_singleton_keep _ _ _ _ h (by decide)
  have h2 : ['\\', 'n'] <:+:
      rAllGo '\n' [] ['\\', 'n'] (rAllGo '\\' [] ['\\', '\\'] msg) :=
    rAllGo_singleton_new_infix _ _ _ h1
  have h3 : ['\\', 'n'] <:+: rAllGo '\t' [] ['\\', 't']
      (rAllGo '\n' [] ['\\', 'n'] (rAllGo '\\' [] ['\\', '\\'] msg)) :=
    rAllGo_singleton_infix_preserved _ _ _ _ h2 (by decide)
  exact rAllGo_singleton_infix_preserved _ _ _ _ h3 (by decide)

theorem escape_msg_infix_quote (msg : List Char) (h : '"' ∈ msg) :
    ['\\', '"'] <:+: escape_msg msg := by
  have h1 : '"' ∈ rAllGo '\\' [] ['\\', '\\'] msg :=
    rAllGo_singleton_keep _ _ _ _ h (by decide)
  have h2 : '"' ∈ rAllGo '\n' [] ['\\', 'n'] (rAllGo '\\' [] ['\\', '\\'] msg) :=
    rAllGo_singleton_keep _ _ _ _ h1 (by decide)
  have h3 : '"' ∈ rAllGo '\t' [] ['\\', 't']
      (rAllGo '\n' [] ['\\', 'n'] (rAllGo '\\' [] ['\\', '\\'] msg)) :=
    rAllGo_singleton_keep _ _ _ _ h2 (by decide)
  exact rAllGo_singleton_new_infix _ _ _ h3

/-- Claim C9: POT serialization (`as_pot`) emits one entry per non-empty
text — the entry list is a permutation of the filtered items and has their
number — ordered ascending by the pair (sorted provenance list, then text);
and the escaping of each msgid turns backslash, newline, tab and
double-quote into two-character escapes: the escaped text contains no raw
newline or tab, every double-quote in it is preceded by a backslash, and a
text containing a newline or a double-quote serializes with a literal \n
or \" sequence. -/
theorem C9_pot_entries_sorted_escaped :
    (∀ tm : List (List Char × List (List Char)),
      (potSorted tm).Perm (potItems tm) ∧
      (potSorted tm).Pairwise (fun a b => tupLe a b = true) ∧
      (potItems tm).length = (tm.filter (fun p => !p.1.isEmpty)).length) ∧
    (∀ msg : List Char,
      '\n' ∉ escape_msg msg ∧ '\t' ∉ escape_msg msg ∧
      quotesEscaped (escape_msg msg) = true ∧
      ('\n' ∈ msg → ['\\', 'n'] <:+: escape_msg msg) ∧
      ('"' ∈ msg → ['\\', '"'] <:+: escape_msg msg)) := by
  constructor
  · intro tm
    refine ⟨sortBy_perm tupLe (potItems tm),
      sortBy_pairwise tupLe tupLe_total tupLe_trans (potItems tm), ?_⟩
    unfold potItems
    rw [List.length_map]
  · intro msg
    exact ⟨(escape_msg_no_ctrl msg).1, (escape_msg_no_ctrl msg).2,
      escape_msg_quotes msg, escape_msg_infix_nl msg, escape_msg_infix_quote msg⟩

/-- Witness for C9: the text `a"b\nc` contains a double-quote and a
newline; its escaped form contains the literal sequences \n and \". -/
theorem C9_pot_entries_sorted_escaped_witness :
    ['\\', 'n'] <:+: escape_msg "a\"b\nc".toList ∧
    ['\\', '"'] <:+: escape_msg "a\"b\nc".toList :=
  ⟨(C9_pot_entries_sorted_escaped.2 "a\"b\nc".toList).2.2.2.1 (by decide),
    (C9_pot_entries_sorted_escaped.2 "a\"b\nc".toList).2.2.2.2 (by decide)⟩
